import Mathlib

/-!
# rcng2unit: the RC script converter of InitWare (src/cmd/rcng/rcng2unit.c)

A shallow embedding of `parse_rcscript`, `emit_name_list`, `do_wanted_symlinks`,
`do_provides`, `emit_units` and `main`, followed by theorems about them.

Conventions of the embedding.

* C strings and byte buffers are `List Char`; `NUL` is the terminator.  The line
  buffer `char l[LINE_MAX]` is a list holding the bytes currently stored in the
  array; a read past the end of that list reads as an empty string.  The array is
  declared inside the loop body, so what it holds beyond the bytes written by the
  current `fgets` is whatever the previous iteration left there; the embedding
  threads the buffer through the loop and takes its first content `l0` as an
  argument.
* `char **` name lists are `Option (List Str)`: `none` is the `NULL` pointer of a
  zero-initialised descriptor, `some []` an allocated list without entries.
* Locals that the source leaves uninitialised (`int r;` in `emit_units` and in
  `do_wanted_symlinks`) get their indeterminate first value as an argument.
* System calls are recorded in a trace, in program order; their outcome is given
  by an oracle `OS` that maps the history of calls and the call to an errno value
  (`0` is success).
* Memory allocation is assumed to succeed (`strjoin`, `strextend`, `strv_split`
  and `new0` never return `NULL`), and a `free` of an allocated block has no
  observable effect.  Log output (`printf`, `log_error`) is not recorded.
* The `free(link)` behind the label `finish` of `do_wanted_symlinks` is not a
  `free` of an allocated block: the variable `link` is declared inside the loop
  body and is out of scope there, so the name denotes the function `link` of the C
  library and `free` is handed its address.  The process is aborted at that point
  (`SIGABRT`), on every call, also for an empty list.  The embedding records this
  as `aborted`: the call does not return, the stream of the unit file is never
  closed, and nothing behind the call happens.
-/

namespace Rcng2Unit

/-- A C string, or a region of bytes. -/
abbrev Str := List Char

/-- The string terminator. -/
def NUL : Char := Char.ofNat 0

/-- The constant `LINE_MAX` of `<limits.h>` (2048 on Linux and on the BSDs). -/
def LINE_MAX : Nat := 2048

/-- The errno value `EEXIST`. -/
def EEXIST : Nat := 17

/-- Modelled from the spec: the macro `WHITESPACE` of the shared utility code, the
set of characters that stripping removes (space, tab, newline, carriage return). -/
def WHITESPACE : List Char := [' ', '\t', '\n', '\r']

/-- The descriptor `struct RcNgService`. -/
structure RcNgService where
  name : Str
  src_path : Str
  provides : Option (List Str)
  requires : Option (List Str)
  before : Option (List Str)
deriving DecidableEq, Repr

/-- The descriptor that `main` builds with `new0` before parsing. -/
def new_service (name src_path : Str) : RcNgService :=
  { name := name, src_path := src_path, provides := none, requires := none, before := none }

/-! ## The input stream -/

/-- An input stream: the bytes it still delivers, what follows them (`none`: end of
file, `some e`: a read error with errno `e`), and the end-of-file indicator. -/
structure FILE where
  data : List Char
  error : Option Nat
  eof : Bool
deriving DecidableEq, Repr

/-- A stream opened on the given content. -/
def fopen_r (content : List Char) : FILE :=
  { data := content, error := none, eof := false }

/-- The outcome of `fgets`. -/
inductive FgetsResult where
  /-- a line was stored: the buffer afterwards and the stream afterwards -/
  | line (l : List Char) (f : FILE)
  /-- `NULL` at end of file -/
  | eof
  /-- `NULL` after a read error, with `errno` -/
  | error (errno : Nat)
deriving DecidableEq, Repr

/-- The characters `fgets` takes from the stream when it may store at most `k` of
them: up to and including the first newline.  The flag tells whether the end of
the delivered bytes was hit while looking for more. -/
def fgets_read : Nat → List Char → List Char × List Char × Bool
  | 0, s => ([], s, false)
  | _ + 1, [] => ([], [], true)
  | k + 1, c :: s =>
    if c = '\n' then ([c], s, false)
    else (c :: (fgets_read k s).1, (fgets_read k s).2.1, (fgets_read k s).2.2)

/-- Storing a line and its terminator at the start of the buffer; the bytes behind
the terminator stay as they were. -/
def store_line (chunk l : List Char) : List Char :=
  chunk ++ NUL :: l.drop (chunk.length + 1)

/-- The call `fgets(l, n, f)`. -/
def fgets (l : List Char) (n : Nat) (f : FILE) : FgetsResult :=
  let rd := fgets_read (n - 1) f.data
  if rd.2.2 then
    match f.error with
    | some e => FgetsResult.error e
    | none =>
      if rd.1 = [] then FgetsResult.eof
      else FgetsResult.line (store_line rd.1 l) { data := [], error := none, eof := true }
  else FgetsResult.line (store_line rd.1 l) { data := rd.2.1, error := f.error, eof := false }

/-! ## String helpers -/

/-- A byte other than the terminator. -/
def not_nul (c : Char) : Bool :=
  c != NUL

/-- Membership in `WHITESPACE`, as `strspn` and `strchr` test it. -/
def is_space (c : Char) : Bool :=
  decide (c ∈ WHITESPACE)

/-- The C string that starts at offset `p` of a buffer. -/
def cstr (buf : List Char) (p : Nat) : Str :=
  (buf.drop p).takeWhile not_nul

/-- Modelled from the spec: `strstrip` of the shared utility code, which is not part
of the source file.  It strips leading and trailing `WHITESPACE` in place: the
result is the offset of the first character that is not whitespace, and a
terminator is written behind the last one. -/
def strstrip (l : List Char) : List Char × Nat :=
  let s := ((cstr l 0).takeWhile is_space).length
  let e := s + ((cstr l s).reverse.dropWhile is_space).length
  (l.set e NUL, s)

/-- Modelled from the spec: `strneq(a, b, n)` of the shared utility code, that is
`strncmp(a, b, n) == 0`. -/
def strneq (a b : Str) (n : Nat) : Bool :=
  a.take n = b.take n

/-- Modelled from the spec: `streq(a, b)` of the shared utility code. -/
def streq (a b : Str) : Bool :=
  a = b

/-- The words of `s` between separators, read from left to right; `cur` is the
word read so far. -/
def strv_split_go (separator : List Char) : List Char → Str → List Str
  | [], cur => if cur = [] then [] else [cur]
  | c :: s, cur =>
    if c ∈ separator then
      (if cur = [] then strv_split_go separator s [] else cur :: strv_split_go separator s [])
    else strv_split_go separator s (cur ++ [c])

/-- Modelled from the spec: `strv_split` of strv.h, the utility that splits a
string on a delimiter into an ordered list; it is not part of the source file.
Runs of separators delimit, and no word is empty. -/
def strv_split (s : Str) (separator : List Char) : List Str :=
  strv_split_go separator s []

/-- Modelled from the spec: `path_get_file_name` of path-util.h, the base name of a
path (what follows its last slash). -/
def path_get_file_name (p : Str) : Str :=
  (p.reverse.takeWhile (fun c => c != '/')).reverse

/-! ## parse_rcscript -/

/-- The body of the loop of `parse_rcscript` after a successful `fgets`: the buffer
`l` holds the line.  Returns the buffer as `strstrip` left it, and the
descriptor. -/
def parse_line (l : List Char) (svc : RcNgService) : List Char × RcNgService :=
  let l1 := (strstrip l).1
  let t := (strstrip l).2
  if l1.getD t NUL ≠ '#' then (l1, svc)
  else
    let t := t + 2
    if strneq (cstr l1 t) "PROVIDE:".toList 8 then
      (l1, { svc with provides := some (strv_split (cstr l1 (t + 9)) " ".toList) })
    else if strneq (cstr l1 t) "REQUIRE:".toList 8 then
      (l1, { svc with requires := some (strv_split (cstr l1 (t + 9)) " ".toList) })
    else if strneq (cstr l1 t) "BEFORE:".toList 7 then
      (l1, { svc with before := some (strv_split (cstr l1 (t + 8)) " ".toList) })
    else (l1, svc)

/-- The loop of `parse_rcscript`, with a bound on the number of iterations. -/
def parse_rcscript_loop : Nat → FILE → List Char → RcNgService → Int × RcNgService
  | 0, _, _, svc => (0, svc)
  | fuel + 1, f, l, svc =>
    if f.eof then (0, svc)
    else
      match fgets l LINE_MAX f with
      | FgetsResult.eof => (0, svc)
      | FgetsResult.error e => (-(e : Int), svc)
      | FgetsResult.line l1 f1 =>
        parse_rcscript_loop fuel f1 (parse_line l1 svc).1 (parse_line l1 svc).2

/-- The function `parse_rcscript`: the returned status and the descriptor
afterwards.  Every iteration but the last consumes a byte, so the bound is never
reached. -/
def parse_rcscript (rcscript : FILE) (l0 : List Char) (svc : RcNgService) : Int × RcNgService :=
  parse_rcscript_loop (rcscript.data.length + 2) rcscript l0 svc

/-! ## System calls -/

/-- The system calls of the emitter, with their arguments. -/
inductive SysCall where
  /-- `unlink(path)` -/
  | unlink (path : Str)
  /-- `fopen(path, "wxe")` -/
  | fopen_wx (path : Str)
  /-- `mkdir_parents_label(path, 0755)`: creates the parent directories of `path` -/
  | mkdir_parents (path : Str)
  /-- `symlink(target, link)` -/
  | symlink (target link : Str)
deriving DecidableEq, Repr

/-- The environment: the errno value (`0` for success) with which a call ends, given
the calls made before it. -/
abbrev OS := List SysCall → SysCall → Nat

/-! ## emit_name_list -/

/-- The state of `emit_name_list` from the entry `el` on: `first` tells whether
`el == names`.  Returns the text of the file and the entries as the loop leaves
them. -/
def emit_name_list_from (append_svc : Bool) : Bool → Str → List Str → Str × List Str
  | _, out_f, [] => (out_f, [])
  | first, out_f, el :: rest =>
    let out1 := if first then out_f else out_f ++ " ".toList
    let el1 := if append_svc then el ++ ".service".toList else el
    ((emit_name_list_from append_svc false (out1 ++ el1) rest).1,
      el1 :: (emit_name_list_from append_svc false (out1 ++ el1) rest).2)

/-- The function `emit_name_list`: the returned status, the text of the file and the
list `names` afterwards (`strextend` replaces the entry it extends). -/
def emit_name_list (out_f : Str) (names : List Str) (append_svc : Bool) : Int × Str × List Str :=
  (0, (emit_name_list_from append_svc true out_f names).1,
    (emit_name_list_from append_svc true out_f names).2)

/-! ## do_wanted_symlinks and do_provides -/

/-- The value of `r` after `r = symlink(...)` and the test for `EEXIST`. -/
def symlink_status (errno : Nat) : Int :=
  if errno = 0 then 0 else if errno = EEXIST then 0 else -1

/-- The path `link` of `do_wanted_symlinks`. -/
def wanted_link (name out_dir wanted_by : Str) : Str :=
  out_dir ++ "/".toList ++ wanted_by ++ ".wants/".toList ++ name ++ ".service".toList

/-- The loop of `do_wanted_symlinks`: the value of `r` and the trace after it. -/
def do_wanted_symlinks_loop (os : OS) (name out_name out_dir : Str) :
    List Str → Int → List SysCall → Int × List SysCall
  | [], r, tr => (r, tr)
  | wanted_by :: rest, _, tr =>
    let link := wanted_link name out_dir wanted_by
    let tr1 := tr ++ [SysCall.mkdir_parents link]
    let r := symlink_status (os tr1 (SysCall.symlink out_name link))
    do_wanted_symlinks_loop os name out_name out_dir rest r (tr1 ++ [SysCall.symlink out_name link])

/-- The function `do_wanted_symlinks`; `r0` is the indeterminate first value of its
local `r`.  Behind the loop stands `finish: free(link); return -r;` with `link` out
of scope: the process is aborted in that `free`, so the function never returns and
`-r` is never handed back.  What the call leaves behind is the trace of its loop. -/
def do_wanted_symlinks (os : OS) (r0 : Int) (name out_name out_dir : Str)
    (wanted_bys : List Str) (tr : List SysCall) : List SysCall :=
  (do_wanted_symlinks_loop os name out_name out_dir wanted_bys r0 tr).2

/-- The path `link` of `do_provides`. -/
def provides_link (out_dir provide : Str) : Str :=
  out_dir ++ "/".toList ++ provide ++ ".service".toList

/-- The loop of `do_provides`: the trace after it. -/
def do_provides_loop (name out_name out_dir : Str) : List Str → List SysCall → List SysCall
  | [], tr => tr
  | provide :: rest, tr =>
    if streq provide name then do_provides_loop name out_name out_dir rest tr
    else
      do_provides_loop name out_name out_dir rest
        (tr ++ [SysCall.symlink out_name (provides_link out_dir provide)])

/-- The function `do_provides`: it returns 0 whatever `symlink` answers. -/
def do_provides (name out_name out_dir : Str) (provides : List Str) (tr : List SysCall) :
    Int × List SysCall :=
  (0, do_provides_loop name out_name out_dir provides tr)

/-! ## emit_units -/

/-- What `emit_units` leaves behind. -/
structure EmitResult where
  /-- the returned status; when `aborted` holds nothing is returned, and the field
  holds the value of `r` at the abort -/
  ret : Int
  /-- the text written to the stream of the unit file; `none` when the file was not
  opened.  When `aborted` holds the stream was never flushed or closed, and the
  source does not determine how much of this text has reached the file -/
  text : Option Str
  /-- the system calls made, the earlier ones included -/
  trace : List SysCall
  /-- the descriptor afterwards -/
  svc : RcNgService
  /-- the process was aborted inside the call (in `do_wanted_symlinks`) -/
  aborted : Bool
deriving DecidableEq, Repr

/-- The text of the first `fprintf` of `emit_units`. -/
def unit_header (src_path : Str) : Str :=
  "# Automatically generated by the InitWare Mewburn RC Script Converter\n\n".toList
    ++ "[Unit]\n".toList ++ "Documentation=man:iw_rcng(8)\n".toList
    ++ "SourcePath=".toList ++ src_path ++ "\n".toList

/-- The text of the last `fprintf` of `emit_units`; `BinPath_Runrcng` is a macro of
the build configuration. -/
def service_section (BinPath_Runrcng src_path : Str) : Str :=
  "[Service]\n".toList ++ "Type=oneshot\n".toList ++ "RemainAfterExit=yes\n".toList
    ++ "ExecStart=".toList ++ BinPath_Runrcng ++ " ".toList ++ src_path ++ " start\n".toList
    ++ "ExecStop=".toList ++ BinPath_Runrcng ++ " ".toList ++ src_path ++ " stop\n".toList

/-- The name `out_name` of the unit file. -/
def unit_path (out_dir name : Str) : Str :=
  out_dir ++ "/".toList ++ name ++ ".service".toList

/-- The block `if (svc->requires)` of `emit_units`: the value of `r`, the text and
the list `requires` afterwards. -/
def emit_requires (r : Int) (out_f : Str) : Option (List Str) → Int × Str × Option (List Str)
  | none => (r, out_f, none)
  | some names =>
    let w := emit_name_list (out_f ++ "Wants=".toList) names true
    let a := emit_name_list (w.2.1 ++ "\n".toList ++ "After=".toList) w.2.2 false
    (a.1, a.2.1 ++ "\n".toList, some a.2.2)

/-- The block `if (svc->provides)` of `emit_units`: the value of `r`, the text and
the trace afterwards. -/
def emit_provides (name out_name out_dir : Str) (r : Int) (out_f : Str)
    (tr : List SysCall) : Option (List Str) → Int × Str × List SysCall
  | none => (r, out_f, tr)
  | some provides =>
    let p := do_provides name out_name out_dir provides tr
    (p.1, out_f ++ "\n".toList, p.2)

/-- The function `emit_units`.  `r0` is the indeterminate first value of its local
`r`, `r0w` that of the local `r` of `do_wanted_symlinks`, and `tr` the system calls
made before the call.  The exits through `goto finish` are taken on a failed
allocation only and do not appear.  With a `before` list the call of
`do_wanted_symlinks` is reached, and the process is aborted in it: the `fputs`
behind that call, the block `if (svc->provides)`, the `[Service]` section and
`fclose` are not reached. -/
def emit_units (os : OS) (r0 r0w : Int) (BinPath_Runrcng out_dir : Str) (svc : RcNgService)
    (tr : List SysCall) : EmitResult :=
  let out_name := unit_path out_dir svc.name
  let tr1 := tr ++ [SysCall.unlink out_name]
  let tr2 := tr1 ++ [SysCall.fopen_wx out_name]
  if os tr1 (SysCall.fopen_wx out_name) ≠ 0 then
    { ret := -((os tr1 (SysCall.fopen_wx out_name) : Nat) : Int), text := none, trace := tr2,
      svc := svc, aborted := false }
  else
    let rq := emit_requires r0 (unit_header svc.src_path) svc.requires
    match svc.before with
    | some names =>
      let b := emit_name_list (rq.2.1 ++ "Before=".toList) names true
      { ret := b.1,
        text := some b.2.1,
        trace := do_wanted_symlinks os r0w svc.name out_name out_dir b.2.2 tr2,
        svc := { svc with requires := rq.2.2, before := some b.2.2 },
        aborted := true }
    | none =>
      let pv := emit_provides svc.name out_name out_dir rq.1 rq.2.1 tr2 svc.provides
      { ret := pv.1,
        text := some (pv.2.1 ++ service_section BinPath_Runrcng svc.src_path ++ "\n".toList),
        trace := pv.2.2,
        svc := { svc with requires := rq.2.2 },
        aborted := false }

/-! ## main -/

/-- The number of the signal `SIGABRT`. -/
def SIGABRT : Int := 6

/-- What a run of the program leaves behind. -/
structure MainResult where
  /-- the value returned by `main`, or passed to `exit` by `errx` and `err`; when
  `aborted` holds nothing is returned, and the field holds `128 + SIGABRT`, the
  status that a shell reports for a process killed by that signal -/
  ret : Int
  /-- the text written to the stream of the unit file, if it was opened -/
  text : Option Str
  /-- the system calls made by the emitter -/
  trace : List SysCall
  /-- the process was aborted (inside `emit_units`) and `main` did not return -/
  aborted : Bool := false
deriving DecidableEq, Repr

/-- The exit status that the parent process sees: the low eight bits. -/
def exit_status (ret : Int) : Int :=
  ret % 256

/-- The function `main`.  `rcscript` is the outcome of `fopen(argv[1], "r")`, `none`
when it fails; `l0`, `r0` and `r0w` are the indeterminate first contents of the
line buffer and of the two uninitialised locals.  When the process is aborted inside
`emit_units` the call `r = emit_units(..)` does not come back and `return -r` is not
reached. -/
def main (os : OS) (l0 : List Char) (r0 r0w : Int) (BinPath_Runrcng : Str) (argv : List Str)
    (rcscript : Option FILE) : MainResult :=
  if argv.length ≠ 3 then { ret := 1, text := none, trace := [] }
  else
    match rcscript with
    | none => { ret := 1, text := none, trace := [] }
    | some f =>
      let svc := new_service (path_get_file_name (argv.getD 1 [])) (argv.getD 1 [])
      let p := parse_rcscript f l0 svc
      if p.1 < 0 then { ret := -p.1, text := none, trace := [] }
      else
        let e := emit_units os r0 r0w BinPath_Runrcng (argv.getD 2 []) p.2 []
        if e.aborted then
          { ret := 128 + SIGABRT, text := e.text, trace := e.trace, aborted := true }
        else { ret := -e.ret, text := e.text, trace := e.trace }

/-! ## Notions used in the statements -/

/-- A name with the unit suffix that `emit_name_list` appends. -/
def with_suffix (el : Str) : Str :=
  el ++ ".service".toList

/-- Names separated by single spaces. -/
def join_names (names : List Str) : Str :=
  " ".toList.intercalate names

/-- The two calls of one round of the loop of `do_wanted_symlinks`. -/
def wanted_calls (name out_name out_dir wanted_by : Str) : List SysCall :=
  [SysCall.mkdir_parents (wanted_link name out_dir wanted_by),
    SysCall.symlink out_name (wanted_link name out_dir wanted_by)]

/-- The alias symlinks of `do_provides`, in the order of the list. -/
def alias_calls (name out_name out_dir : Str) (provides : List Str) : List SysCall :=
  (provides.filter (fun p => p ≠ name)).map
    (fun p => SysCall.symlink out_name (provides_link out_dir p))

/-- The optional lines that `emit_units` writes behind the header for a descriptor
without a `before` list. -/
def unit_lines (svc : RcNgService) : Str :=
  (match svc.requires with
    | none => []
    | some rs =>
      "Wants=".toList ++ join_names (rs.map with_suffix) ++ "\n".toList
        ++ "After=".toList ++ join_names (rs.map with_suffix) ++ "\n".toList)
  ++ (match svc.provides with
    | none => []
    | some _ => "\n".toList)

/-! ## Environments and inputs of the examples -/

/-- An environment in which every call succeeds. -/
def os_ok : OS :=
  fun _ _ => 0

/-- An environment in which every `symlink` fails with `EACCES` and every other call
succeeds. -/
def os_symlink_eacces : OS :=
  fun _ c =>
    match c with
    | SysCall.symlink _ _ => 13
    | _ => 0

/-- An environment in which the unit file cannot be opened (`EACCES`). -/
def os_open_eacces : OS :=
  fun _ c =>
    match c with
    | SysCall.fopen_wx _ => 13
    | _ => 0

/-- A value for the macro `BinPath_Runrcng`. -/
def bin_demo : Str :=
  "/usr/libexec/runrcng".toList

/-- The command line `rcng2unit /etc/rc.d/myd /out`. -/
def argv_demo : List Str :=
  ["rcng2unit".toList, "/etc/rc.d/myd".toList, "/out".toList]

/-- A descriptor whose only list is `requires = [bar]`. -/
def svc_requires_bar : RcNgService :=
  { name := "foo".toList, src_path := "/etc/rc.d/foo".toList, provides := none,
    requires := some ["bar".toList], before := none }

/-- A descriptor with `provides = [foo, bar]` and `before = [DAEMON, LOGIN]`. -/
def svc_foo : RcNgService :=
  { name := "foo".toList, src_path := "/etc/rc.d/foo".toList,
    provides := some ["foo".toList, "bar".toList], requires := none,
    before := some ["DAEMON".toList, "LOGIN".toList] }

/-- A script with a `BEFORE:` line and no `PROVIDE:` line. -/
def script_before_only : List Char :=
  "#!/bin/sh\n# BEFORE: DAEMON\n".toList

/-- A script whose only directive line is a `REQUIRE:` line. -/
def script_require_only : List Char :=
  "#!/bin/sh\n# REQUIRE: network\n".toList

/-- The descriptor of the script `myd` that provides `myd`, requires `network` and
is to run before `DAEMON`. -/
def svc_myd : RcNgService :=
  { name := "myd".toList, src_path := "/etc/rc.d/myd".toList,
    provides := some ["myd".toList], requires := some ["network".toList],
    before := some ["DAEMON".toList] }

/-! ## Lines and directives, in the words of the specification -/

/-- The three directives. -/
inductive Directive where
  | provide
  | require
  | before
deriving DecidableEq, Repr

/-- The keyword of a directive, colon included. -/
def Directive.keyword : Directive → Str
  | Directive.provide => "PROVIDE:".toList
  | Directive.require => "REQUIRE:".toList
  | Directive.before => "BEFORE:".toList

/-- The list of the descriptor that a directive fills. -/
def Directive.field : Directive → RcNgService → Option (List Str)
  | Directive.provide, svc => svc.provides
  | Directive.require, svc => svc.requires
  | Directive.before, svc => svc.before

/-- The descriptor with the list of a directive replaced. -/
def Directive.assign : Directive → List Str → RcNgService → RcNgService
  | Directive.provide, v, svc => { svc with provides := some v }
  | Directive.require, v, svc => { svc with requires := some v }
  | Directive.before, v, svc => { svc with before := some v }

/-- A line without its leading and trailing whitespace. -/
def spec_strip (line : List Char) : List Char :=
  ((line.dropWhile is_space).reverse.dropWhile is_space).reverse

/-- A line is a directive line for a keyword when its stripped form starts with `#`
and the text behind the `#` and one more character begins with the keyword. -/
def is_key_line (key line : List Char) : Bool :=
  decide ((spec_strip line).head? = some '#') && decide (key <+: (spec_strip line).drop 2)

/-- A line that matches one of the three directives. -/
def is_directive_line (line : List Char) : Bool :=
  is_key_line Directive.provide.keyword line || is_key_line Directive.require.keyword line
    || is_key_line Directive.before.keyword line

/-- The text whose lines are the given ones, each ended by a newline. -/
def unlines (lines : List (List Char)) : List Char :=
  (lines.map (fun x => x ++ ['\n'])).flatten

/-- A line that the parser reads in one piece: no newline inside, and short enough
for the buffer together with its newline. -/
def short_line (x : List Char) : Prop :=
  '\n' ∉ x ∧ x.length + 1 < LINE_MAX

instance decidable_short_line (x : List Char) : Decidable (short_line x) := by
  unfold short_line
  exact inferInstance

/-- The line `# KEYWORD: t1 t2 ..` of a directive. -/
def directive_line (d : Directive) (tokens : List Str) : List Char :=
  "# ".toList ++ d.keyword ++ " ".toList ++ join_names tokens

/-- A token: not empty, and free of whitespace and of the terminator. -/
def clean_token (t : Str) : Prop :=
  t ≠ [] ∧ ∀ c ∈ t, is_space c = false ∧ c ≠ NUL

instance decidable_clean_token (t : Str) : Decidable (clean_token t) := by
  unfold clean_token
  exact inferInstance

/-- The step of the parser on one full line: the buffer and the descriptor before
and after. -/
def line_step (st : List Char × RcNgService) (line : List Char) : List Char × RcNgService :=
  parse_line (store_line (line ++ ['\n']) st.1) st.2

/-- A line of 2059 characters: 2047 times `x`, then the text `# PROVIDE: z`. -/
def overlong_provide_line : List Char :=
  List.replicate 2047 'x' ++ "# PROVIDE: z".toList

/-- A line of 2059 characters: 2047 times `a`, then the text `# REQUIRE: z`. -/
def overlong_require_line : List Char :=
  List.replicate 2047 'a' ++ "# REQUIRE: z".toList

/-- The descriptor that `main` builds for `/etc/rc.d/myd`. -/
def svc_new_myd : RcNgService :=
  new_service "myd".toList "/etc/rc.d/myd".toList

/-- A script whose `REQUIRE:` line has no tokens. -/
def script_empty_require : List Char :=
  "#!/bin/sh\n# REQUIRE:\n".toList

/-- A descriptor without a `before` list whose other lists are present and without
entries. -/
def svc_empty_requires : RcNgService :=
  { name := "foo".toList, src_path := "/etc/rc.d/foo".toList, provides := some [],
    requires := some [], before := none }

/-- The entries of the lists that are present are not empty and hold neither a blank,
nor a newline, nor a terminator. -/
def words_clean (svc : RcNgService) : Prop :=
  ∀ (d : Directive) (toks : List Str), d.field svc = some toks →
    ∀ t ∈ toks, t ≠ [] ∧ ' ' ∉ t ∧ '\n' ∉ t ∧ NUL ∉ t

/-- A line that, if it is a directive line, has at least one character behind the
keyword: its stripped form is longer than the `#`, the skipped character and the
keyword. -/
def has_value (line : List Char) : Prop :=
  ∀ d : Directive, is_key_line d.keyword line = true →
    2 + d.keyword.length < (spec_strip line).length

instance decidable_has_value (line : List Char) : Decidable (has_value line) :=
  decidable_of_iff
    ((is_key_line Directive.provide.keyword line = true →
        2 + Directive.provide.keyword.length < (spec_strip line).length)
      ∧ (is_key_line Directive.require.keyword line = true →
        2 + Directive.require.keyword.length < (spec_strip line).length)
      ∧ (is_key_line Directive.before.keyword line = true →
        2 + Directive.before.keyword.length < (spec_strip line).length))
    ⟨fun h d => by cases d <;> [exact h.1; exact h.2.1; exact h.2.2],
      fun h => ⟨h _, h _, h _⟩⟩

/-- A line of 2058 characters: 2047 times `k`, then the text `# BEFORE: y`. -/
def overlong_before_line : List Char :=
  List.replicate 2047 'k' ++ "# BEFORE: y".toList

theorem emit_name_list_from_names (b : Bool) (names : List Str) :
    ∀ (first : Bool) (out_f : Str),
      (emit_name_list_from b first out_f names).2
        = names.map (fun el => if b then el ++ ".service".toList else el) := by
  induction names with
  | nil => intro first out_f; rfl
  | cons el rest ih =>
    intro first out_f
    simp only [emit_name_list_from, List.map_cons]
    rw [ih]

theorem emit_name_list_from_text_false (b : Bool) (names : List Str) :
    ∀ (out_f : Str),
      (emit_name_list_from b false out_f names).1
        = out_f ++ (names.map
            (fun el => " ".toList ++ (if b then el ++ ".service".toList else el))).flatten := by
  induction names with
  | nil => intro out_f; simp [emit_name_list_from]
  | cons el rest ih =>
    intro out_f
    simp only [emit_name_list_from, List.map_cons, List.flatten_cons]
    rw [ih]
    simp [List.append_assoc]

theorem intercalate_cons_eq (sep : Str) (x : Str) (xs : List Str) :
    sep.intercalate (x :: xs) = x ++ (xs.map (fun el => sep ++ el)).flatten := by
  induction xs generalizing x with
  | nil => simp [List.intercalate]
  | cons y ys ih =>
    have h := ih y
    simp only [List.intercalate, List.intersperse, List.flatten_cons, List.map_cons] at h ⊢
    rw [h]
    simp [List.append_assoc]

theorem emit_name_list_from_text_true (b : Bool) (names : List Str) (out_f : Str) :
    (emit_name_list_from b true out_f names).1
      = out_f ++ join_names (names.map (fun el => if b then el ++ ".service".toList else el)) := by
  cases names with
  | nil => simp [emit_name_list_from, join_names, List.intercalate]
  | cons el rest =>
    simp only [emit_name_list_from, List.map_cons, join_names]
    rw [emit_name_list_from_text_false, intercalate_cons_eq]
    simp [List.append_assoc, List.map_map, Function.comp_def]

theorem emit_name_list_append (out_f : Str) (names : List Str) :
    emit_name_list out_f names true
      = (0, out_f ++ join_names (names.map with_suffix), names.map with_suffix) := by
  simp only [emit_name_list, emit_name_list_from_text_true, emit_name_list_from_names]
  rfl

theorem emit_name_list_plain (out_f : Str) (names : List Str) :
    emit_name_list out_f names false = (0, out_f ++ join_names names, names) := by
  simp only [emit_name_list, emit_name_list_from_text_true, emit_name_list_from_names]
  simp

theorem do_wanted_symlinks_loop_trace (os : OS) (name out_name out_dir : Str)
    (wanted_bys : List Str) :
    ∀ (r : Int) (tr : List SysCall),
      (do_wanted_symlinks_loop os name out_name out_dir wanted_bys r tr).2
        = tr ++ (wanted_bys.map (wanted_calls name out_name out_dir)).flatten := by
  induction wanted_bys with
  | nil => intro r tr; simp [do_wanted_symlinks_loop]
  | cons w rest ih =>
    intro r tr
    simp only [do_wanted_symlinks_loop, List.map_cons, List.flatten_cons]
    rw [ih]
    simp [wanted_calls, List.append_assoc]

theorem do_provides_loop_trace (name out_name out_dir : Str) (provides : List Str) :
    ∀ (tr : List SysCall),
      do_provides_loop name out_name out_dir provides tr
        = tr ++ alias_calls name out_name out_dir provides := by
  induction provides with
  | nil => intro tr; simp [do_provides_loop, alias_calls]
  | cons p rest ih =>
    intro tr
    by_cases h : p = name
    · have hs : streq p name = true := by simp [streq, h]
      simp only [do_provides_loop, hs, if_true]
      rw [ih]
      simp [alias_calls, h]
    · have hs : streq p name = false := by simp [streq, h]
      simp only [do_provides_loop, hs]
      rw [if_neg (by simp), ih]
      simp [alias_calls, h, List.append_assoc]

theorem emit_requires_eq (r : Int) (out_f : Str) (rs : List Str) :
    emit_requires r out_f (some rs)
      = (0, out_f ++ "Wants=".toList ++ join_names (rs.map with_suffix) ++ "\n".toList
            ++ "After=".toList ++ join_names (rs.map with_suffix) ++ "\n".toList,
          some (rs.map with_suffix)) := by
  simp only [emit_requires, emit_name_list_append, emit_name_list_plain]

theorem emit_units_text (os : OS) (r0 r0w : Int) (bin out_dir : Str) (svc : RcNgService)
    (tr : List SysCall) (hb : svc.before = none)
    (hopen : os (tr ++ [SysCall.unlink (unit_path out_dir svc.name)])
      (SysCall.fopen_wx (unit_path out_dir svc.name)) = 0) :
    (emit_units os r0 r0w bin out_dir svc tr).text
      = some (unit_header svc.src_path ++ unit_lines svc
          ++ service_section bin svc.src_path ++ "\n".toList) := by
  obtain ⟨name, src, pv, rq, bf⟩ := svc
  simp only at hb
  subst hb
  simp only [emit_units, hopen, ne_eq, not_true_eq_false, if_false]
  cases rq <;> cases pv <;>
    simp [emit_requires, emit_provides, emit_name_list_append,
      emit_name_list_plain, unit_lines, List.append_assoc]

theorem emit_units_returns (os : OS) (r0 r0w : Int) (bin out_dir : Str) (svc : RcNgService)
    (tr : List SysCall) (hb : svc.before = none) :
    (emit_units os r0 r0w bin out_dir svc tr).aborted = false := by
  obtain ⟨name, src, pv, rq, bf⟩ := svc
  simp only at hb
  subst hb
  simp only [emit_units]
  split <;> rfl

theorem emit_units_aborts (os : OS) (r0 r0w : Int) (bin out_dir : Str) (svc : RcNgService)
    (tr : List SysCall) (bs : List Str) (hb : svc.before = some bs)
    (hopen : os (tr ++ [SysCall.unlink (unit_path out_dir svc.name)])
      (SysCall.fopen_wx (unit_path out_dir svc.name)) = 0) :
    (emit_units os r0 r0w bin out_dir svc tr).aborted = true
      ∧ (emit_units os r0 r0w bin out_dir svc tr).trace
        = tr ++ [SysCall.unlink (unit_path out_dir svc.name),
              SysCall.fopen_wx (unit_path out_dir svc.name)]
            ++ ((bs.map with_suffix).map
                (wanted_calls svc.name (unit_path out_dir svc.name) out_dir)).flatten := by
  obtain ⟨name, src, pv, rq, bf⟩ := svc
  simp only at hb
  subst hb
  simp only [emit_units, hopen, ne_eq, not_true_eq_false, if_false]
  refine ⟨trivial, ?_⟩
  simp [emit_name_list_append, do_wanted_symlinks, do_wanted_symlinks_loop_trace,
    List.append_assoc]

/-! ## Claims about the emitter -/

/-- C3, as stated, fails: in an environment where the unit file cannot be opened,
`emit_units` makes no directory and attempts no symlink, although the `before` list
has the entries `DAEMON` and `LOGIN`. -/
theorem emit_units_open_failure_makes_no_symlink :
    svc_foo.before = some ["DAEMON".toList, "LOGIN".toList]
      ∧ (emit_units os_open_eacces 0 0 bin_demo "/out".toList svc_foo []).trace
        = [SysCall.unlink "/out/foo.service".toList,
            SysCall.fopen_wx "/out/foo.service".toList] := by
  decide

/-- C3, amended.  When the unit file has been opened, the calls of `emit_units` for
a descriptor with name `n` and `before = [e1, ..]` are: the `unlink` and the `fopen`
of the unit file `<out_dir>/<n>.service`, then for every `e` in order the creation of
the parent directories of `<out_dir>/<e>.service.wants/<n>.service` followed by the
`symlink` from that path to the unit file, and no other call. -/
theorem emit_units_wanted_symlinks (os : OS) (r0 r0w : Int) (bin out_dir : Str)
    (svc : RcNgService) (tr : List SysCall) (bs : List Str)
    (hb : svc.before = some bs)
    (hopen : os (tr ++ [SysCall.unlink (out_dir ++ "/".toList ++ svc.name ++ ".service".toList)])
      (SysCall.fopen_wx (out_dir ++ "/".toList ++ svc.name ++ ".service".toList)) = 0) :
    (emit_units os r0 r0w bin out_dir svc tr).trace
      = tr ++ [SysCall.unlink (out_dir ++ "/".toList ++ svc.name ++ ".service".toList),
            SysCall.fopen_wx (out_dir ++ "/".toList ++ svc.name ++ ".service".toList)]
          ++ (bs.map (fun e =>
              [SysCall.mkdir_parents
                  (out_dir ++ "/".toList ++ (e ++ ".service".toList) ++ ".wants/".toList
                    ++ svc.name ++ ".service".toList),
                SysCall.symlink (out_dir ++ "/".toList ++ svc.name ++ ".service".toList)
                  (out_dir ++ "/".toList ++ (e ++ ".service".toList) ++ ".wants/".toList
                    ++ svc.name ++ ".service".toList)])).flatten := by
  have h := (emit_units_aborts os r0 r0w bin out_dir svc tr bs hb hopen).2
  rw [h]
  simp only [List.map_map]
  rfl

/-- C3, amended, at the descriptor of `myd` with `before = [DAEMON]` and output
directory `/out`: the only wants-symlink is `/out/DAEMON.service.wants/myd.service`,
it points at `/out/myd.service`, and its parent directories are created first. -/
theorem emit_units_wanted_symlinks_witness :
    (emit_units os_ok 0 0 bin_demo "/out".toList svc_myd []).trace
      = [SysCall.unlink "/out/myd.service".toList,
          SysCall.fopen_wx "/out/myd.service".toList,
          SysCall.mkdir_parents "/out/DAEMON.service.wants/myd.service".toList,
          SysCall.symlink "/out/myd.service".toList
            "/out/DAEMON.service.wants/myd.service".toList] :=
  (emit_units_wanted_symlinks os_ok 0 0 bin_demo "/out".toList svc_myd []
    ["DAEMON".toList] rfl rfl).trans (by decide)

/-- C4.  `do_provides` returns 0 and attempts one symlink `<out_dir>/<e>.service`,
pointing at the unit file, for every entry `e` of `provides` that differs from the
name, in the order of the list; an entry equal to the name is passed over and the
entries behind it are still served. -/
theorem do_provides_skips_own_name (name out_name out_dir : Str) (provides : List Str)
    (tr : List SysCall) :
    do_provides name out_name out_dir provides tr
      = (0, tr ++ (provides.filter (fun e => e ≠ name)).map
          (fun e => SysCall.symlink out_name (out_dir ++ "/".toList ++ e ++ ".service".toList))) := by
  simp only [do_provides, do_provides_loop_trace]
  rfl

/-- C5 (code defect).  A descriptor without any list, as parsed from a script
without directives: `emit_units` returns its local `r`, which no statement has
assigned.  The value is indeterminate, so a first run that happens to return 0 may
be followed by a second run, on the state the first one left, that returns something
else. -/
theorem emit_units_rerun_status_undetermined :
    (emit_units os_ok 0 0 bin_demo "/out".toList
        (new_service "myd".toList "/etc/rc.d/myd".toList) []).ret = 0
      ∧ (emit_units os_ok 1 0 bin_demo "/out".toList
          (new_service "myd".toList "/etc/rc.d/myd".toList)
          (emit_units os_ok 0 0 bin_demo "/out".toList
            (new_service "myd".toList "/etc/rc.d/myd".toList) []).trace).ret = 1 := by
  decide

set_option maxRecDepth 8000 in
/-- C6 (code defect).  The descriptor with `provides = [foo, bar]` and
`before = [DAEMON, LOGIN]` in an environment where the unit file opens and every
symlink fails with `EACCES`: both entries of `before` are attempted, and then the
process is aborted in the `free(link)` that ends `do_wanted_symlinks`.  The text
handed to the stream stops behind the names of the `Before=` line, without a
`[Service]` section, the stream is never closed, and the alias symlink for `bar` is
never attempted. -/
theorem emit_units_aborted_after_symlink_failure :
    os_symlink_eacces
        [SysCall.unlink "/out/foo.service".toList, SysCall.fopen_wx "/out/foo.service".toList,
          SysCall.mkdir_parents "/out/DAEMON.service.wants/foo.service".toList]
        (SysCall.symlink "/out/foo.service".toList
          "/out/DAEMON.service.wants/foo.service".toList) = 13
      ∧ (emit_units os_symlink_eacces 0 0 bin_demo "/out".toList svc_foo []).aborted = true
      ∧ (emit_units os_symlink_eacces 0 0 bin_demo "/out".toList svc_foo []).text
        = some ("# Automatically generated by the InitWare Mewburn RC Script Converter\n\n"
            ++ "[Unit]\nDocumentation=man:iw_rcng(8)\nSourcePath=/etc/rc.d/foo\n"
            ++ "Before=DAEMON.service LOGIN.service").toList
      ∧ (emit_units os_symlink_eacces 0 0 bin_demo "/out".toList svc_foo []).trace
        = [SysCall.unlink "/out/foo.service".toList,
            SysCall.fopen_wx "/out/foo.service".toList,
            SysCall.mkdir_parents "/out/DAEMON.service.wants/foo.service".toList,
            SysCall.symlink "/out/foo.service".toList
              "/out/DAEMON.service.wants/foo.service".toList,
            SysCall.mkdir_parents "/out/LOGIN.service.wants/foo.service".toList,
            SysCall.symlink "/out/foo.service".toList
              "/out/LOGIN.service.wants/foo.service".toList] := by
  decide

/-- C7 (code defect).  A script without directives, in an environment where every
call succeeds: `emit_units` returns its local `r`, which no statement has assigned,
and `main` returns its negation; with the indeterminate value 7 the status is -7,
exit status 249.  A script with a `BEFORE:` line never reaches a return of
`emit_units`: the process is aborted in `do_wanted_symlinks`, whether the symlink
succeeds or fails. -/
theorem main_does_not_report_success :
    (main os_ok [] 7 0 bin_demo argv_demo (some (fopen_r "#!/bin/sh\n".toList))).aborted
        = false
      ∧ (main os_ok [] 7 0 bin_demo argv_demo (some (fopen_r "#!/bin/sh\n".toList))).ret
        = -7
      ∧ exit_status
          (main os_ok [] 7 0 bin_demo argv_demo (some (fopen_r "#!/bin/sh\n".toList))).ret
        = 249
      ∧ (main os_ok [] 0 0 bin_demo argv_demo (some (fopen_r script_before_only))).aborted
        = true
      ∧ (main os_symlink_eacces [] 0 0 bin_demo argv_demo
          (some (fopen_r script_before_only))).aborted = true := by
  decide

set_option maxRecDepth 8000 in
/-- C10 (code defect).  A script whose only directive line is a `REQUIRE:` line, in
an environment where every call succeeds: `main` returns, and the text written has
`[Service]` on the line that follows the `After=` line.  The empty line between the
sections is written inside the block that handles `provides`, so it is missing
whenever that list is absent. -/
theorem main_text_without_provides :
    (main os_ok [] 0 0 bin_demo argv_demo (some (fopen_r script_require_only))).aborted
        = false
      ∧ (main os_ok [] 0 0 bin_demo argv_demo (some (fopen_r script_require_only))).text
        = some ("# Automatically generated by the InitWare Mewburn RC Script Converter\n\n"
            ++ "[Unit]\nDocumentation=man:iw_rcng(8)\nSourcePath=/etc/rc.d/myd\n"
            ++ "Wants=network.service\nAfter=network.service\n"
            ++ "[Service]\nType=oneshot\nRemainAfterExit=yes\n"
            ++ "ExecStart=/usr/libexec/runrcng /etc/rc.d/myd start\n"
            ++ "ExecStop=/usr/libexec/runrcng /etc/rc.d/myd stop\n\n").toList := by
  decide

/-! ## The loop of the parser on full lines -/

theorem fgets_read_line (line rest : List Char) (hnl : '\n' ∉ line) :
    ∀ k, line.length < k →
      fgets_read k (line ++ '\n' :: rest) = (line ++ ['\n'], rest, false) := by
  induction line with
  | nil =>
    intro k hk
    obtain ⟨k, rfl⟩ : ∃ j, k = j + 1 := ⟨k - 1, by simp at hk; omega⟩
    simp [fgets_read]
  | cons c line ih =>
    intro k hk
    obtain ⟨k, rfl⟩ : ∃ j, k = j + 1 := ⟨k - 1, by simp at hk; omega⟩
    have hc : c ≠ '\n' := fun h => hnl (by simp [h])
    have hl : '\n' ∉ line := fun h => hnl (by simp [h])
    have hk2 : line.length < k := by simp at hk; omega
    simp [fgets_read, hc, ih hl k hk2]

theorem parse_loop_line (fuel : Nat) (line rest : List Char) (err : Option Nat)
    (l : List Char) (svc : RcNgService) (h : short_line line) :
    parse_rcscript_loop (fuel + 1) { data := line ++ '\n' :: rest, error := err, eof := false }
        l svc
      = parse_rcscript_loop fuel { data := rest, error := err, eof := false }
          (line_step (l, svc) line).1 (line_step (l, svc) line).2 := by
  have hr := fgets_read_line line rest h.1 (LINE_MAX - 1) (by have := h.2; omega)
  simp only [parse_rcscript_loop, fgets, hr, line_step]
  simp

theorem parse_loop_end (fuel : Nat) (l : List Char) (svc : RcNgService) :
    parse_rcscript_loop (fuel + 1) { data := [], error := none, eof := false } l svc
      = (0, svc) := by
  simp [parse_rcscript_loop, fgets, fgets_read, LINE_MAX]

theorem unlines_cons (x : List Char) (xs : List (List Char)) :
    unlines (x :: xs) = x ++ '\n' :: unlines xs := by
  simp [unlines]

theorem unlines_append (xs ys : List (List Char)) :
    unlines (xs ++ ys) = unlines xs ++ unlines ys := by
  simp [unlines]

theorem length_le_unlines (xs : List (List Char)) : xs.length ≤ (unlines xs).length := by
  induction xs with
  | nil => simp
  | cons x xs ih => rw [unlines_cons]; simp; omega

theorem parse_loop_lines (err : Option Nat) (lines : List (List Char)) :
    ∀ (fuel : Nat) (rest l : List Char) (svc : RcNgService),
      (∀ x ∈ lines, short_line x) →
      parse_rcscript_loop (lines.length + fuel)
          { data := unlines lines ++ rest, error := err, eof := false } l svc
        = parse_rcscript_loop fuel { data := rest, error := err, eof := false }
            (lines.foldl line_step (l, svc)).1 (lines.foldl line_step (l, svc)).2 := by
  induction lines with
  | nil => intro fuel rest l svc _; simp [unlines]
  | cons x xs ih =>
    intro fuel rest l svc h
    have hx : short_line x := h x (by simp)
    have hxs : ∀ y ∈ xs, short_line y := fun y hy => h y (by simp [hy])
    have e1 : (x :: xs).length + fuel = (xs.length + fuel) + 1 := by simp; omega
    have e2 : unlines (x :: xs) ++ rest = x ++ '\n' :: (unlines xs ++ rest) := by
      simp [unlines_cons]
    rw [e1, e2, parse_loop_line _ _ _ _ _ _ hx, ih fuel rest _ _ hxs]
    simp [List.foldl_cons]

theorem parse_rcscript_lines (lines : List (List Char)) (l0 : List Char) (svc : RcNgService)
    (h : ∀ x ∈ lines, short_line x) :
    parse_rcscript (fopen_r (unlines lines)) l0 svc
      = (0, (lines.foldl line_step (l0, svc)).2) := by
  have hlen := length_le_unlines lines
  obtain ⟨k, hk⟩ : ∃ k, (unlines lines).length + 2 = lines.length + (k + 1) :=
    ⟨(unlines lines).length + 1 - lines.length, by omega⟩
  have hp := parse_loop_lines none lines (k + 1) [] l0 svc h
  simp only [List.append_nil] at hp
  simp only [parse_rcscript, fopen_r, hk, hp, parse_loop_end]

/-! ## Lists: terminators, whitespace, prefixes -/

theorem space_not_nul {c : Char} (h : is_space c = true) : not_nul c = true := by
  simp only [is_space, WHITESPACE, decide_eq_true_eq, List.mem_cons, List.mem_singleton,
    List.mem_nil_iff, or_false] at h
  rcases h with h | h | h | h <;> subst h <;> decide

theorem takeWhile_space_not_nul (B : List Char) :
    (B.takeWhile not_nul).takeWhile is_space = B.takeWhile is_space := by
  induction B with
  | nil => rfl
  | cons b B ih =>
    by_cases hs : is_space b = true
    · have hn : not_nul b = true := space_not_nul hs
      simp [List.takeWhile_cons, hs, hn, ih]
    · by_cases hn : not_nul b = true <;> simp [List.takeWhile_cons, hs, hn]

theorem getD_set_nul (B : List Char) (e s : Nat) (c : Char)
    (h : (B.set e NUL).getD s NUL = c) (hc : c ≠ NUL) : B.getD s NUL = c := by
  simp only [List.getD_eq_getElem?_getD, List.getElem?_set] at h ⊢
  by_cases hes : e = s
  · exfalso
    rw [if_pos hes] at h
    by_cases hl : e < B.length
    · rw [if_pos hl] at h; exact hc (by simpa using h.symm)
    · rw [if_neg hl] at h; exact hc (by simpa using h.symm)
  · rw [if_neg hes] at h; exact h

theorem takeWhile_set_drop_sub (B : List Char) :
    ∀ (e p : Nat), ((B.set e NUL).drop p).takeWhile not_nul <+: B.drop p := by
  induction B with
  | nil => intro e p; simp
  | cons b B ih =>
    intro e p
    cases p with
    | zero =>
      cases e with
      | zero =>
        have : not_nul NUL = false := by decide
        simp [List.takeWhile_cons, this]
      | succ e =>
        have := ih e 0
        simp only [List.drop_zero] at this
        by_cases hb : not_nul b = true
        · simp [List.takeWhile_cons, hb, this]
        · simp [List.takeWhile_cons, hb]
    | succ p =>
      cases e with
      | zero => simpa using List.takeWhile_prefix (l := B.drop p) not_nul
      | succ e => simpa using ih e p

theorem drop_length_takeWhile (p : Char → Bool) (B : List Char) :
    B.drop (B.takeWhile p).length = B.dropWhile p := by
  induction B with
  | nil => rfl
  | cons b B ih =>
    by_cases hb : p b = true
    · simp [List.takeWhile_cons, List.dropWhile_cons, hb, ih]
    · simp [List.takeWhile_cons, List.dropWhile_cons, hb]

theorem prefix_of_append_cons {K A Bs : List Char} {c : Char}
    (h : K <+: A ++ c :: Bs) (hc : c ∉ K) : K <+: A := by
  rcases Nat.le_total K.length A.length with hle | hle
  · exact List.prefix_of_prefix_length_le h (List.prefix_append A _) hle
  · by_cases hlt : K.length = A.length
    · exact List.prefix_of_prefix_length_le h (List.prefix_append A _) (by omega)
    · exfalso
      have h2 : A ++ [c] <+: A ++ c :: Bs := by
        simp
      have h3 : A ++ [c] <+: K :=
        List.prefix_of_prefix_length_le h2 h (by simp; omega)
      exact hc (h3.subset (by simp))

theorem trim_append (A w : List Char) (a : Char) (ha : is_space a = false) :
    (((A ++ [a]) ++ w).reverse.dropWhile is_space).reverse
      = (A ++ [a]) ++ (w.reverse.dropWhile is_space).reverse := by
  have e1 : ((A ++ [a]) ++ w).reverse = w.reverse ++ (a :: A.reverse) := by simp
  rw [e1, List.dropWhile_append]
  by_cases hw : (w.reverse.dropWhile is_space).isEmpty = true
  · rw [if_pos hw]
    have hw2 : w.reverse.dropWhile is_space = [] := by simpa using hw
    simp [hw2, List.dropWhile_cons, ha]
  · rw [if_neg hw]
    simp

/-! ## One line in the buffer -/

theorem store_line_newline (line l : List Char) :
    store_line (line ++ ['\n']) l = line ++ '\n' :: NUL :: l.drop (line.length + 2) := by
  simp [store_line]

theorem strstrip_offset (B : List Char) :
    (strstrip B).2 = (B.takeWhile is_space).length := by
  simp [strstrip, cstr, takeWhile_space_not_nul]

theorem strstrip_buffer (B : List Char) : ∃ e, (strstrip B).1 = B.set e NUL :=
  ⟨_, rfl⟩

theorem key_line_of_dropWhile (key line w : List Char) (c : Char) (hkey : key ≠ [])
    (hk : ∀ c ∈ key, is_space c = false ∧ c ≠ NUL)
    (hv : line.dropWhile is_space = '#' :: c :: (key ++ w)) :
    is_key_line key line = true := by
  obtain ⟨key0, a, rfl⟩ : ∃ key0 a, key = key0 ++ [a] :=
    ⟨key.dropLast, key.getLast hkey, (List.dropLast_append_getLast hkey).symm⟩
  have ha : is_space a = false := (hk a (by simp)).1
  have e1 : '#' :: c :: (key0 ++ [a] ++ w) = (('#' :: c :: key0) ++ [a]) ++ w := by simp
  have hs : spec_strip line
      = '#' :: c :: (key0 ++ [a] ++ (w.reverse.dropWhile is_space).reverse) := by
    rw [spec_strip, hv, e1, trim_append _ _ _ ha]
    simp
  simp [is_key_line, hs]

/-- If the code takes the branch of a keyword on a full line, the line is a directive
line of that keyword in the sense of the specification. -/
theorem match_sound (key line stale : List Char) (hkey : key ≠ [])
    (hk : ∀ c ∈ key, is_space c = false ∧ c ≠ NUL)
    (h1 : (strstrip (line ++ '\n' :: NUL :: stale)).1.getD
      (strstrip (line ++ '\n' :: NUL :: stale)).2 NUL = '#')
    (h2 : strneq (cstr (strstrip (line ++ '\n' :: NUL :: stale)).1
      ((strstrip (line ++ '\n' :: NUL :: stale)).2 + 2)) key key.length = true) :
    is_key_line key line = true := by
  obtain ⟨e, he⟩ := strstrip_buffer (line ++ '\n' :: NUL :: stale)
  rw [he, strstrip_offset] at h1 h2
  generalize hB : line ++ '\n' :: NUL :: stale = B at h1 h2
  -- facts about the buffer as `fgets` left it
  have g1 : B.getD (B.takeWhile is_space).length NUL = '#' :=
    getD_set_nul B e _ '#' h1 (by decide)
  have g2 : key <+: B.drop ((B.takeWhile is_space).length + 2) := by
    have hp : key <+: cstr (B.set e NUL) ((B.takeWhile is_space).length + 2) := by
      have ht : key = (cstr (B.set e NUL) ((B.takeWhile is_space).length + 2)).take key.length := by
        have := of_decide_eq_true h2
        simpa using this.symm
      rw [ht]
      exact List.take_prefix _ _
    exact hp.trans (takeWhile_set_drop_sub B e _)
  have g3 : (B.dropWhile is_space).head?.getD NUL = '#' := by
    rw [← drop_length_takeWhile, List.head?_drop]
    simpa using g1
  have g4 : key <+: (B.dropWhile is_space).drop 2 := by
    rw [← drop_length_takeWhile, List.drop_drop]
    simpa [Nat.add_comm] using g2
  subst hB
  have hnlsp : is_space '\n' = true := by decide
  have hnul : is_space NUL = false := by decide
  rw [List.dropWhile_append] at g3 g4
  by_cases hv : (line.dropWhile is_space).isEmpty = true
  · exfalso
    rw [if_pos hv] at g3
    simp [List.dropWhile_cons, hnlsp, hnul] at g3
    exact absurd g3 (by decide)
  · rw [if_neg hv] at g3 g4
    cases hvv : line.dropWhile is_space with
    | nil => simp [hvv] at hv
    | cons x v =>
      rw [hvv] at g3 g4
      have hx : x = '#' := by simpa using g3
      subst hx
      cases v with
      | nil =>
        exfalso
        simp only [List.cons_append, List.nil_append, List.drop_succ_cons, List.drop_zero] at g4
        cases key with
        | nil => exact hkey rfl
        | cons k key =>
          have hkk : k = NUL := (List.cons_prefix_cons.mp g4).1
          exact (hk k (by simp)).2 hkk
      | cons c v =>
        simp only [List.cons_append, List.drop_succ_cons, List.drop_zero] at g4
        have hnl : '\n' ∉ key := fun hm => by
          have := (hk '\n' hm).1
          rw [hnlsp] at this
          exact absurd this (by decide)
        obtain ⟨w, hw⟩ := prefix_of_append_cons g4 hnl
        exact key_line_of_dropWhile key line w c hkey hk (by rw [hvv, hw])

theorem keyword_ne_nil (d : Directive) : d.keyword ≠ [] := by
  cases d <;> decide

theorem keyword_chars (d : Directive) :
    ∀ c ∈ d.keyword, is_space c = false ∧ c ≠ NUL := by
  cases d <;> decide

/-- What `parse_line` does to the descriptor: nothing, or the assignment of one list
after the test of its keyword has succeeded. -/
theorem parse_line_cases (B : List Char) (svc : RcNgService) :
    (parse_line B svc).2 = svc
      ∨ ∃ (d : Directive) (v : List Str), (strstrip B).1.getD (strstrip B).2 NUL = '#'
          ∧ strneq (cstr (strstrip B).1 ((strstrip B).2 + 2)) d.keyword d.keyword.length = true
          ∧ (parse_line B svc).2 = d.assign v svc := by
  by_cases h1 : (strstrip B).1.getD (strstrip B).2 NUL = '#'
  · by_cases hp : strneq (cstr (strstrip B).1 ((strstrip B).2 + 2)) "PROVIDE:".toList 8 = true
    · right
      refine ⟨Directive.provide,
        strv_split (cstr (strstrip B).1 ((strstrip B).2 + 2 + 9)) " ".toList, h1, hp, ?_⟩
      simp only [parse_line, h1, hp, ne_eq, not_true_eq_false, if_false, if_true]
      rfl
    · by_cases hr : strneq (cstr (strstrip B).1 ((strstrip B).2 + 2)) "REQUIRE:".toList 8 = true
      · right
        refine ⟨Directive.require,
          strv_split (cstr (strstrip B).1 ((strstrip B).2 + 2 + 9)) " ".toList, h1, hr, ?_⟩
        simp only [parse_line, h1, hp, hr, ne_eq, not_true_eq_false, if_false, if_true,
          Bool.false_eq_true]
        rfl
      · by_cases hb : strneq (cstr (strstrip B).1 ((strstrip B).2 + 2)) "BEFORE:".toList 7 = true
        · right
          refine ⟨Directive.before,
            strv_split (cstr (strstrip B).1 ((strstrip B).2 + 2 + 8)) " ".toList, h1, hb, ?_⟩
          simp only [parse_line, h1, hp, hr, hb, ne_eq, not_true_eq_false, if_false, if_true,
            Bool.false_eq_true]
          rfl
        · left
          simp only [parse_line, h1, hp, hr, hb, ne_eq, not_true_eq_false, if_false,
            Bool.false_eq_true]
  · left
    simp only [parse_line, h1, ne_eq, not_false_eq_true, if_true]

theorem assign_field_ne (d d2 : Directive) (v : List Str) (svc : RcNgService) (h : d ≠ d2) :
    d2.field (d.assign v svc) = d2.field svc := by
  cases d <;> cases d2 <;> first | rfl | exact absurd rfl h

/-- A full line that is not a directive line of `d` leaves the list of `d` as it
was. -/
theorem line_step_field (d : Directive) (st : List Char × RcNgService) (line : List Char)
    (h : is_key_line d.keyword line = false) :
    d.field (line_step st line).2 = d.field st.2 := by
  rw [line_step, store_line_newline]
  rcases parse_line_cases (line ++ '\n' :: NUL :: st.1.drop (line.length + 2)) st.2 with
    h0 | ⟨d2, v, h1, h2, h3⟩
  · rw [h0]
  · have hm := match_sound d2.keyword line _ (keyword_ne_nil d2) (keyword_chars d2) h1 h2
    have hne : d2 ≠ d := fun e => by rw [e, h] at hm; exact absurd hm (by decide)
    rw [h3, assign_field_ne d2 d v st.2 hne]

/-- A full line that is no directive line leaves the descriptor as it was. -/
theorem line_step_inert (st : List Char × RcNgService) (line : List Char)
    (h : is_directive_line line = false) :
    (line_step st line).2 = st.2 := by
  rw [line_step, store_line_newline]
  rcases parse_line_cases (line ++ '\n' :: NUL :: st.1.drop (line.length + 2)) st.2 with
    h0 | ⟨d2, v, h1, h2, _⟩
  · exact h0
  · exfalso
    have hm := match_sound d2.keyword line _ (keyword_ne_nil d2) (keyword_chars d2) h1 h2
    simp only [is_directive_line, Bool.or_eq_false_iff] at h
    cases d2
    · rw [h.1.1] at hm; exact absurd hm (by decide)
    · rw [h.1.2] at hm; exact absurd hm (by decide)
    · rw [h.2] at hm; exact absurd hm (by decide)

theorem foldl_line_step_inert (lines : List (List Char)) :
    ∀ (st : List Char × RcNgService), (∀ x ∈ lines, is_directive_line x = false) →
      (lines.foldl line_step st).2 = st.2 := by
  induction lines with
  | nil => intro st _; rfl
  | cons x xs ih =>
    intro st h
    rw [List.foldl_cons, ih _ (fun y hy => h y (by simp [hy])), line_step_inert st x (h x (by simp))]

theorem foldl_line_step_field (d : Directive) (lines : List (List Char)) :
    ∀ (st : List Char × RcNgService), (∀ x ∈ lines, is_key_line d.keyword x = false) →
      d.field (lines.foldl line_step st).2 = d.field st.2 := by
  induction lines with
  | nil => intro st _; rfl
  | cons x xs ih =>
    intro st h
    rw [List.foldl_cons, ih _ (fun y hy => h y (by simp [hy])),
      line_step_field d st x (h x (by simp))]

/-! ## Splitting a line of tokens -/

theorem join_names_single (t : Str) : join_names [t] = t := by
  simp [join_names, List.intercalate]

theorem join_names_cons_cons (t u : Str) (ts : List Str) :
    join_names (t :: u :: ts) = t ++ ' ' :: join_names (u :: ts) := by
  simp [join_names, List.intercalate, List.intersperse]

theorem strv_split_go_token (tok : Str) (htok : ∀ c ∈ tok, c ≠ ' ') :
    ∀ (rest cur : Str),
      strv_split_go " ".toList (tok ++ rest) cur = strv_split_go " ".toList rest (cur ++ tok) := by
  induction tok with
  | nil => intro rest cur; simp
  | cons c tok ih =>
    intro rest cur
    have hc : c ∉ " ".toList := by
      have := htok c (by simp)
      simpa using this
    have h2 : ∀ c ∈ tok, c ≠ ' ' := fun x hx => htok x (by simp [hx])
    rw [List.cons_append, strv_split_go, if_neg hc, ih h2]
    simp

theorem clean_token_no_blank {t : Str} (h : clean_token t) : ∀ c ∈ t, c ≠ ' ' := by
  intro c hc hcs
  have := (h.2 c hc).1
  rw [hcs] at this
  exact absurd this (by decide)

theorem strv_split_go_join (ts : List Str) :
    ∀ (t cur : Str), (∀ x ∈ t :: ts, clean_token x) →
      strv_split_go " ".toList (join_names (t :: ts)) cur = (cur ++ t) :: ts := by
  induction ts with
  | nil =>
    intro t cur h
    have ht := h t (by simp)
    have := strv_split_go_token t (clean_token_no_blank ht) [] cur
    rw [List.append_nil] at this
    rw [join_names_single, this, strv_split_go, if_neg]
    intro hnil
    exact ht.1 (List.append_eq_nil.mp hnil).2
  | cons u ts ih =>
    intro t cur h
    have ht := h t (by simp)
    have hrest : ∀ x ∈ u :: ts, clean_token x := fun x hx => h x (by simp [hx])
    have hne : cur ++ t ≠ [] := by
      intro hnil
      exact ht.1 (List.append_eq_nil.mp hnil).2
    have hb : ' ' ∈ " ".toList := by decide
    rw [join_names_cons_cons, strv_split_go_token t (clean_token_no_blank ht), strv_split_go,
      if_pos hb, if_neg hne, ih u [] hrest]
    simp

theorem strv_split_join (tokens : List Str) (hne : tokens ≠ [])
    (h : ∀ t ∈ tokens, clean_token t) :
    strv_split (join_names tokens) " ".toList = tokens := by
  cases tokens with
  | nil => exact absurd rfl hne
  | cons t ts =>
    rw [strv_split, strv_split_go_join ts t [] h]
    simp

theorem join_names_mem (tokens : List Str) :
    ∀ c ∈ join_names tokens, c = ' ' ∨ ∃ t ∈ tokens, c ∈ t := by
  induction tokens with
  | nil => intro c hc; simp [join_names, List.intercalate] at hc
  | cons t ts ih =>
    intro c hc
    cases ts with
    | nil =>
      rw [join_names_single] at hc
      exact Or.inr ⟨t, by simp, hc⟩
    | cons u ts =>
      rw [join_names_cons_cons] at hc
      simp only [List.mem_append, List.mem_cons] at hc
      rcases hc with hc | hc | hc
      · exact Or.inr ⟨t, by simp, hc⟩
      · exact Or.inl hc
      · rcases ih c hc with h | ⟨x, hx, hcx⟩
        · exact Or.inl h
        · exact Or.inr ⟨x, by simp [List.mem_cons] at hx ⊢; exact Or.inr hx, hcx⟩

theorem join_names_last (tokens : List Str) (hne : tokens ≠ [])
    (h : ∀ t ∈ tokens, clean_token t) :
    ∃ A a, join_names tokens = A ++ [a] ∧ is_space a = false := by
  induction tokens with
  | nil => exact absurd rfl hne
  | cons t ts ih =>
    cases ts with
    | nil =>
      have ht := h t (by simp)
      refine ⟨t.dropLast, t.getLast ht.1, ?_, (ht.2 _ (List.getLast_mem ht.1)).1⟩
      rw [join_names_single, List.dropLast_append_getLast]
    | cons u ts =>
      obtain ⟨A, a, hA, ha⟩ := ih (by simp) (fun x hx => h x (by simp [hx]))
      refine ⟨t ++ ' ' :: A, a, ?_, ha⟩
      rw [join_names_cons_cons, hA]
      simp

/-! ## A directive line in the buffer -/

theorem cstr_append_nul (X Y : List Char) (p : Nat) (hX : ∀ c ∈ X, not_nul c = true)
    (hp : p ≤ X.length) : cstr (X ++ NUL :: Y) p = X.drop p := by
  have hn : not_nul NUL = false := by decide
  rw [cstr, List.drop_append_of_le_length hp,
    List.takeWhile_append_of_pos (fun c hc => hX c (List.mem_of_mem_drop hc))]
  simp [List.takeWhile_cons, hn]

theorem strstrip_clean (a z : Char) (u A stale : List Char) (hline : a :: u = A ++ [z])
    (ha : is_space a = false) (hz : is_space z = false)
    (hnn : ∀ c ∈ a :: u, not_nul c = true) :
    strstrip ((a :: u) ++ '\n' :: NUL :: stale) = ((a :: u) ++ NUL :: NUL :: stale, 0) := by
  have hnl : is_space '\n' = true := by decide
  have hX : ∀ c ∈ (a :: u) ++ ['\n'], not_nul c = true := by
    intro c hc
    rcases List.mem_append.mp hc with h | h
    · exact hnn c h
    · have : c = '\n' := by simpa using h
      subst this
      decide
  have e0 : (a :: u) ++ '\n' :: NUL :: stale = ((a :: u) ++ ['\n']) ++ NUL :: stale := by simp
  have c0 : cstr ((a :: u) ++ '\n' :: NUL :: stale) 0 = (a :: u) ++ ['\n'] := by
    rw [e0, cstr_append_nul _ _ 0 hX (Nat.zero_le _)]
    rfl
  have hs : ((cstr ((a :: u) ++ '\n' :: NUL :: stale) 0).takeWhile is_space).length = 0 := by
    rw [c0]
    simp [List.takeWhile_cons, ha]
  have he : ((cstr ((a :: u) ++ '\n' :: NUL :: stale) 0).reverse.dropWhile is_space).length
      = (a :: u).length := by
    rw [c0, List.reverse_append, hline]
    simp [List.dropWhile_cons, hnl, hz]
  simp only [strstrip, hs, Nat.zero_add, he]
  rw [List.set_append_right _ _ (Nat.le_refl _)]
  simp

theorem directive_line_eq (d : Directive) (tokens : List Str) :
    directive_line d tokens = '#' :: ' ' :: (d.keyword ++ ' ' :: join_names tokens) := by
  simp [directive_line]

theorem directive_line_strstrip (d : Directive) (tokens : List Str) (stale : List Char)
    (hne : tokens ≠ []) (h : ∀ t ∈ tokens, clean_token t) :
    (∀ c ∈ directive_line d tokens, not_nul c = true)
      ∧ strstrip (directive_line d tokens ++ '\n' :: NUL :: stale)
        = (directive_line d tokens ++ NUL :: NUL :: stale, 0) := by
  obtain ⟨A, z, hA, hz⟩ := join_names_last tokens hne h
  have hJ : ∀ c ∈ join_names tokens, not_nul c = true := by
    intro c hc
    rcases join_names_mem tokens c hc with hb | ⟨t, ht, hct⟩
    · subst hb; decide
    · have := ((h t ht).2 c hct).2
      simp [not_nul, this]
  have hK : ∀ c ∈ d.keyword, not_nul c = true := by
    intro c hc
    have := (keyword_chars d c hc).2
    simp [not_nul, this]
  have hnn : ∀ c ∈ directive_line d tokens, not_nul c = true := by
    intro c hc
    rw [directive_line_eq] at hc
    simp only [List.mem_cons, List.mem_append] at hc
    rcases hc with hc | hc | hc | hc | hc
    · subst hc; decide
    · subst hc; decide
    · exact hK c hc
    · subst hc; decide
    · exact hJ c hc
  refine ⟨hnn, ?_⟩
  rw [directive_line_eq] at hnn ⊢
  exact strstrip_clean '#' z _ ('#' :: ' ' :: (d.keyword ++ ' ' :: A)) stale
    (by rw [hA]; simp) (by decide) hz hnn

/-- A full line `# KEYWORD: t1 t2 ..` with at least one token assigns exactly the
tokens to the list of the keyword. -/
theorem line_step_directive (d : Directive) (tokens : List Str)
    (st : List Char × RcNgService) (hne : tokens ≠ []) (h : ∀ t ∈ tokens, clean_token t) :
    (line_step st (directive_line d tokens)).2 = d.assign tokens st.2 := by
  obtain ⟨hnn, hs⟩ := directive_line_strstrip d tokens
    (st.1.drop ((directive_line d tokens).length + 2)) hne h
  have hlen : (directive_line d tokens).length = 2 + d.keyword.length + 1 + (join_names tokens).length := by
    rw [directive_line_eq]; simp; omega
  have c2 := cstr_append_nul (directive_line d tokens)
    (NUL :: st.1.drop ((directive_line d tokens).length + 2)) 2 hnn (by omega)
  have cj := cstr_append_nul (directive_line d tokens)
    (NUL :: st.1.drop ((directive_line d tokens).length + 2)) (2 + (d.keyword.length + 1)) hnn
    (by omega)
  have hsplit := strv_split_join tokens hne h
  rw [line_step, store_line_newline, parse_line, hs]
  simp only [c2]
  cases d
  · have cj2 : cstr (directive_line Directive.provide tokens ++ NUL :: NUL ::
        st.1.drop ((directive_line Directive.provide tokens).length + 2)) (0 + 2 + 9)
        = join_names tokens := by
      rw [show 0 + 2 + 9 = 2 + (Directive.provide.keyword.length + 1) from rfl, cj,
        directive_line_eq]
      simp [Directive.keyword]
    rw [cj2, hsplit]
    simp [directive_line_eq, Directive.keyword, strneq, Directive.assign]
  · have cj2 : cstr (directive_line Directive.require tokens ++ NUL :: NUL ::
        st.1.drop ((directive_line Directive.require tokens).length + 2)) (0 + 2 + 9)
        = join_names tokens := by
      rw [show 0 + 2 + 9 = 2 + (Directive.require.keyword.length + 1) from rfl, cj,
        directive_line_eq]
      simp [Directive.keyword]
    rw [cj2, hsplit]
    simp [directive_line_eq, Directive.keyword, strneq, Directive.assign]
  · have cj2 : cstr (directive_line Directive.before tokens ++ NUL :: NUL ::
        st.1.drop ((directive_line Directive.before tokens).length + 2)) (0 + 2 + 8)
        = join_names tokens := by
      rw [show 0 + 2 + 8 = 2 + (Directive.before.keyword.length + 1) from rfl, cj,
        directive_line_eq]
      simp [Directive.keyword]
    rw [cj2, hsplit]
    simp [directive_line_eq, Directive.keyword, strneq, Directive.assign]

/-! ## The bound of the loop is never reached -/

theorem fgets_read_rest_le (data : List Char) :
    ∀ k, (fgets_read k data).2.1.length ≤ data.length := by
  induction data with
  | nil => intro k; cases k <;> simp [fgets_read]
  | cons c s ih =>
    intro k
    cases k with
    | zero => simp [fgets_read]
    | succ k =>
      by_cases hc : c = '\n'
      · simp [fgets_read, hc]
      · have := ih k
        simp only [fgets_read, hc, if_false, List.length_cons]
        omega

theorem fgets_read_consumes (k : Nat) (data : List Char)
    (h : (fgets_read (k + 1) data).2.2 = false) :
    (fgets_read (k + 1) data).2.1.length < data.length := by
  cases data with
  | nil => simp [fgets_read] at h
  | cons c s =>
    by_cases hc : c = '\n'
    · simp [fgets_read, hc]
    · have := fgets_read_rest_le s k
      simp only [fgets_read, hc, if_false, List.length_cons]
      omega

theorem fgets_read_full (chunk rest : List Char) (hnl : '\n' ∉ chunk) :
    fgets_read chunk.length (chunk ++ rest) = (chunk, rest, false) := by
  induction chunk with
  | nil => simp [fgets_read]
  | cons c chunk ih =>
    have hc : c ≠ '\n' := fun h => hnl (by simp [h])
    have hl : '\n' ∉ chunk := fun h => hnl (by simp [h])
    simp [fgets_read, hc, ih hl]

theorem parse_loop_chunk (fuel : Nat) (chunk rest : List Char) (err : Option Nat)
    (l : List Char) (svc : RcNgService) (hlen : chunk.length = LINE_MAX - 1)
    (hnl : '\n' ∉ chunk) :
    parse_rcscript_loop (fuel + 1) { data := chunk ++ rest, error := err, eof := false } l svc
      = parse_rcscript_loop fuel { data := rest, error := err, eof := false }
          (parse_line (store_line chunk l) svc).1 (parse_line (store_line chunk l) svc).2 := by
  have hr := fgets_read_full chunk rest hnl
  rw [hlen] at hr
  simp only [parse_rcscript_loop, fgets, hr]
  simp

theorem key_line_ordinary (key : List Char) (a : Char) (u : List Char)
    (hs : is_space a = false) (hh : a ≠ '#') :
    is_key_line key (a :: u) = false := by
  have h1 : (a :: u).dropWhile is_space = ([] ++ [a]) ++ u := by
    simp [List.dropWhile_cons, hs]
  have h2 : spec_strip (a :: u) = a :: (u.reverse.dropWhile is_space).reverse := by
    rw [spec_strip, h1, trim_append [] u a hs]
    simp
  simp [is_key_line, h2, hh]

/-! ## The parser on whole inputs -/

theorem directive_line_no_newline (d : Directive) (tokens : List Str)
    (h : ∀ t ∈ tokens, clean_token t) : '\n' ∉ directive_line d tokens := by
  have hnl : is_space '\n' = true := by decide
  intro hm
  rw [directive_line_eq] at hm
  simp only [List.mem_cons, List.mem_append] at hm
  rcases hm with hc | hc | hc | hc | hc
  · exact absurd hc (by decide)
  · exact absurd hc (by decide)
  · have := (keyword_chars d _ hc).1
    rw [hnl] at this
    exact absurd this (by decide)
  · exact absurd hc (by decide)
  · rcases join_names_mem tokens _ hc with hb | ⟨t, ht, hct⟩
    · exact absurd hb (by decide)
    · have := ((h t ht).2 _ hct).1
      rw [hnl] at this
      exact absurd this (by decide)

/-- An input of short lines with one longer piece in it: the piece fills the buffer
and is handled as a line of its own, and what follows it is read as the next
line. -/
theorem parse_rcscript_with_chunk (pre post : List (List Char)) (chunk l0 : List Char)
    (svc : RcNgService) (hpre : ∀ x ∈ pre, short_line x) (hpost : ∀ x ∈ post, short_line x)
    (hlen : chunk.length = LINE_MAX - 1) (hnl : '\n' ∉ chunk) :
    parse_rcscript (fopen_r (unlines pre ++ (chunk ++ unlines post))) l0 svc
      = (0, (post.foldl line_step
          (parse_line (store_line chunk (pre.foldl line_step (l0, svc)).1)
            (pre.foldl line_step (l0, svc)).2)).2) := by
  have h1 := length_le_unlines pre
  have h2 := length_le_unlines post
  obtain ⟨k, hk⟩ : ∃ k, (unlines pre ++ (chunk ++ unlines post)).length + 2
      = pre.length + ((post.length + (k + 1)) + 1) :=
    ⟨(unlines pre ++ (chunk ++ unlines post)).length - pre.length - post.length, by
      simp only [List.length_append]; omega⟩
  have hp := parse_loop_lines none pre ((post.length + (k + 1)) + 1) (chunk ++ unlines post)
    l0 svc hpre
  have hq := parse_loop_lines none post (k + 1) []
    (parse_line (store_line chunk (pre.foldl line_step (l0, svc)).1)
      (pre.foldl line_step (l0, svc)).2).1
    (parse_line (store_line chunk (pre.foldl line_step (l0, svc)).1)
      (pre.foldl line_step (l0, svc)).2).2 hpost
  simp only [List.append_nil] at hq
  have hc := parse_loop_chunk (post.length + (k + 1)) chunk (unlines post) none
    (pre.foldl line_step (l0, svc)).1 (pre.foldl line_step (l0, svc)).2 hlen hnl
  simp only [parse_rcscript, fopen_r, hk]
  rw [hp, hc, hq, parse_loop_end]

/-! ## Claims about the parser -/

/-- C2, as stated, fails in three ways.  With an empty list of tokens the line
`# PROVIDE: ` yields the single entry made of the newline: stripping leaves the
terminator where the blank was, and the split starts one byte behind it.  A token
that ends in a tab loses the tab to stripping, and a token with a terminator inside
is cut there. -/
theorem parse_rcscript_roundtrip_fails :
    (parse_rcscript
        (fopen_r (unlines [directive_line Directive.provide [],
          directive_line Directive.require ["x".toList, "y".toList],
          directive_line Directive.before ["m".toList]]))
        [] svc_new_myd).2.provides = some ["\n".toList]
      ∧ (parse_rcscript
          (fopen_r (unlines [directive_line Directive.provide ["a\t".toList],
            directive_line Directive.require ["x".toList],
            directive_line Directive.before ["m".toList]]))
          [] svc_new_myd).2.provides = some ["a".toList]
      ∧ (parse_rcscript
          (fopen_r (unlines [directive_line Directive.provide [['a', NUL, 'b']],
            directive_line Directive.require ["x".toList],
            directive_line Directive.before ["m".toList]]))
          [] svc_new_myd).2.provides = some ["a".toList] := by
  decide

/-- C2, amended.  Let the input consist of lines that end in a newline and fit the
buffer: a line `# PROVIDE: ` with the tokens `P`, later a line `# REQUIRE: ` with
`R`, later a line `# BEFORE: ` with `B`, among any lines that are no directive
lines.  If the three lists are not empty and their tokens are not empty and free of
whitespace and terminators, the parser returns 0 and leaves `provides = P`,
`requires = R` and `before = B`. -/
theorem parse_rcscript_roundtrip (pre m1 m2 post : List (List Char)) (P R B : List Str)
    (l0 : List Char) (svc : RcNgService)
    (hother : ∀ x ∈ pre ++ m1 ++ m2 ++ post, short_line x ∧ is_directive_line x = false)
    (hP : P ≠ []) (hR : R ≠ []) (hB : B ≠ [])
    (hclean : ∀ t ∈ P ++ R ++ B, clean_token t)
    (hlen : (directive_line Directive.provide P).length + 1 < LINE_MAX
      ∧ (directive_line Directive.require R).length + 1 < LINE_MAX
      ∧ (directive_line Directive.before B).length + 1 < LINE_MAX) :
    parse_rcscript
        (fopen_r (unlines (pre ++ [directive_line Directive.provide P] ++ m1
          ++ [directive_line Directive.require R] ++ m2
          ++ [directive_line Directive.before B] ++ post)))
        l0 svc
      = (0, { svc with provides := some P, requires := some R, before := some B }) := by
  have cP : ∀ t ∈ P, clean_token t := fun t ht => hclean t (by simp [ht])
  have cR : ∀ t ∈ R, clean_token t := fun t ht => hclean t (by simp [ht])
  have cB : ∀ t ∈ B, clean_token t := fun t ht => hclean t (by simp [ht])
  have ipre : ∀ x ∈ pre, is_directive_line x = false := fun x hx => (hother x (by simp [hx])).2
  have im1 : ∀ x ∈ m1, is_directive_line x = false := fun x hx => (hother x (by simp [hx])).2
  have im2 : ∀ x ∈ m2, is_directive_line x = false := fun x hx => (hother x (by simp [hx])).2
  have ipost : ∀ x ∈ post, is_directive_line x = false :=
    fun x hx => (hother x (by simp [hx])).2
  have hshort : ∀ x ∈ pre ++ [directive_line Directive.provide P] ++ m1
      ++ [directive_line Directive.require R] ++ m2
      ++ [directive_line Directive.before B] ++ post, short_line x := by
    intro x hx
    simp only [List.mem_append, List.mem_singleton] at hx
    rcases hx with (((((hx | hx) | hx) | hx) | hx) | hx) | hx
    · exact (hother x (by simp [hx])).1
    · rw [hx]; exact ⟨directive_line_no_newline _ _ cP, hlen.1⟩
    · exact (hother x (by simp [hx])).1
    · rw [hx]; exact ⟨directive_line_no_newline _ _ cR, hlen.2.1⟩
    · exact (hother x (by simp [hx])).1
    · rw [hx]; exact ⟨directive_line_no_newline _ _ cB, hlen.2.2⟩
    · exact (hother x (by simp [hx])).1
  rw [parse_rcscript_lines _ l0 svc hshort]
  simp only [List.foldl_append, List.foldl_cons, List.foldl_nil]
  rw [foldl_line_step_inert post _ ipost, line_step_directive _ _ _ hB cB,
    foldl_line_step_inert m2 _ im2, line_step_directive _ _ _ hR cR,
    foldl_line_step_inert m1 _ im1, line_step_directive _ _ _ hP cP,
    foldl_line_step_inert pre _ ipre]
  rfl

/-- C2, amended, at the script header `#!/bin/sh`, `# PROVIDE: a b c`,
`# REQUIRE: x y`, an empty line, `# BEFORE: m`, `name="myd"`. -/
theorem parse_rcscript_roundtrip_witness :
    parse_rcscript
        (fopen_r ("#!/bin/sh\n# PROVIDE: a b c\n# REQUIRE: x y\n\n# BEFORE: m\n"
          ++ "name=\"myd\"\n").toList)
        [] svc_new_myd
      = (0, { svc_new_myd with
          provides := some ["a".toList, "b".toList, "c".toList],
          requires := some ["x".toList, "y".toList],
          before := some ["m".toList] }) :=
  parse_rcscript_roundtrip ["#!/bin/sh".toList] [] [[]] ["name=\"myd\"".toList]
    ["a".toList, "b".toList, "c".toList] ["x".toList, "y".toList] ["m".toList] []
    svc_new_myd (by decide) (by decide) (by decide) (by decide) (by decide) (by decide)

theorem unlines_chunk (pre post : List (List Char)) (chunk tail : List Char) :
    unlines (pre ++ (chunk ++ tail) :: post)
      = unlines pre ++ (chunk ++ unlines (tail :: post)) := by
  simp [unlines]

theorem directive_line_ordinary (a : Char) (u : List Char) (hs : is_space a = false)
    (hh : a ≠ '#') : is_directive_line (a :: u) = false := by
  unfold is_directive_line
  rw [key_line_ordinary _ a u hs hh, key_line_ordinary _ a u hs hh,
    key_line_ordinary _ a u hs hh]
  rfl

theorem replicate_no_newline (n : Nat) (c : Char) (hc : c ≠ '\n') :
    '\n' ∉ List.replicate n c :=
  fun h => hc (List.eq_of_mem_replicate h).symm

/-- C8, as stated, fails on an input whose last line is longer than the buffer.  The
lines are `# PROVIDE: a`, `# PROVIDE: b` and a line of 2047 times `x` followed by
`# PROVIDE: z`.  The third line is no directive line, so the last `PROVIDE:` line
holds `b`; but `fgets` delivers the third line in two pieces, the second piece is
`# PROVIDE: z`, and `provides` ends as `[z]`.  It also fails when the last
`PROVIDE:` line has no token behind the blank: the list then holds the newline as
its one entry. -/
theorem parse_rcscript_last_wins_fails :
    is_key_line Directive.provide.keyword overlong_provide_line = false
      ∧ (parse_rcscript
          (fopen_r (unlines ["# PROVIDE: a".toList, "# PROVIDE: b".toList,
            overlong_provide_line]))
          [] svc_new_myd).2.provides = some ["z".toList]
      ∧ (parse_rcscript (fopen_r (unlines ["# PROVIDE: a".toList, "# PROVIDE: ".toList]))
          [] svc_new_myd).2.provides = some ["\n".toList] := by
  refine ⟨?_, ?_, by decide⟩
  · exact key_line_ordinary _ 'x' _ (by decide) (by decide)
  · have hd : unlines ["# PROVIDE: a".toList, "# PROVIDE: b".toList, overlong_provide_line]
        = unlines ["# PROVIDE: a".toList, "# PROVIDE: b".toList]
          ++ (List.replicate 2047 'x'
            ++ unlines [directive_line Directive.provide ["z".toList]]) :=
      unlines_chunk ["# PROVIDE: a".toList, "# PROVIDE: b".toList] []
        (List.replicate 2047 'x') "# PROVIDE: z".toList
    have hc := parse_rcscript_with_chunk ["# PROVIDE: a".toList, "# PROVIDE: b".toList]
      [directive_line Directive.provide ["z".toList]] (List.replicate 2047 'x') []
      svc_new_myd (by decide) (by decide) (List.length_replicate 2047 'x')
      (replicate_no_newline 2047 'x' (by decide))
    rw [hd, hc]
    simp only [List.foldl_cons, List.foldl_nil]
    rw [line_step_directive _ _ _ (by decide) (by decide)]
    rfl

/-- C8, amended.  Let the input consist of lines that end in a newline and fit the
buffer, let the last directive line of a keyword be `# KEYWORD: ` followed by one or
more tokens (not empty, free of whitespace and terminators) separated by single
blanks, and let any lines precede it, directive lines of the same keyword included.
Then the parser returns 0 and the list of that keyword holds exactly the tokens of
that last line. -/
theorem parse_rcscript_last_wins (d : Directive) (pre post : List (List Char))
    (tokens : List Str) (l0 : List Char) (svc : RcNgService)
    (hpre : ∀ x ∈ pre, short_line x)
    (hpost : ∀ x ∈ post, short_line x ∧ is_key_line d.keyword x = false)
    (hne : tokens ≠ []) (hclean : ∀ t ∈ tokens, clean_token t)
    (hlen : (directive_line d tokens).length + 1 < LINE_MAX) :
    (parse_rcscript (fopen_r (unlines (pre ++ [directive_line d tokens] ++ post))) l0 svc).1 = 0
      ∧ d.field
          (parse_rcscript (fopen_r (unlines (pre ++ [directive_line d tokens] ++ post)))
            l0 svc).2
        = some tokens := by
  have hshort : ∀ x ∈ pre ++ [directive_line d tokens] ++ post, short_line x := by
    intro x hx
    simp only [List.mem_append, List.mem_singleton] at hx
    rcases hx with (hx | hx) | hx
    · exact hpre x hx
    · rw [hx]; exact ⟨directive_line_no_newline _ _ hclean, hlen⟩
    · exact (hpost x hx).1
  rw [parse_rcscript_lines _ l0 svc hshort]
  refine ⟨rfl, ?_⟩
  simp only [List.foldl_append, List.foldl_cons, List.foldl_nil]
  rw [foldl_line_step_field d post _ (fun x hx => (hpost x hx).2),
    line_step_directive _ _ _ hne hclean]
  cases d <;> rfl

/-- C8, amended, at two `PROVIDE:` lines with a `REQUIRE:` line behind them: the
list holds the tokens of the second line. -/
theorem parse_rcscript_last_wins_witness :
    (parse_rcscript
        (fopen_r "# PROVIDE: a b\n# PROVIDE: c d e\n# REQUIRE: x\n".toList)
        [] svc_new_myd).1 = 0
      ∧ (parse_rcscript
          (fopen_r "# PROVIDE: a b\n# PROVIDE: c d e\n# REQUIRE: x\n".toList)
          [] svc_new_myd).2.provides = some ["c".toList, "d".toList, "e".toList] :=
  parse_rcscript_last_wins Directive.provide ["# PROVIDE: a b".toList] ["# REQUIRE: x".toList]
    ["c".toList, "d".toList, "e".toList] [] svc_new_myd (by decide) (by decide) (by decide)
    (by decide) (by decide)

/-- C9, as stated, fails on an input with a line longer than the buffer.  The lines
are `#!/bin/sh` and a line of 2047 times `a` followed by `# REQUIRE: z`; neither is
a directive line.  `fgets` delivers the second line in two pieces, the second piece
is `# REQUIRE: z`, and `requires` ends as `[z]`. -/
theorem parse_rcscript_absence_fails :
    is_directive_line "#!/bin/sh".toList = false
      ∧ is_directive_line overlong_require_line = false
      ∧ (parse_rcscript (fopen_r (unlines ["#!/bin/sh".toList, overlong_require_line]))
          [] svc_new_myd).2.requires = some ["z".toList] := by
  refine ⟨by decide, ?_, ?_⟩
  · exact directive_line_ordinary 'a' _ (by decide) (by decide)
  · have hd : unlines ["#!/bin/sh".toList, overlong_require_line]
        = unlines ["#!/bin/sh".toList]
          ++ (List.replicate 2047 'a'
            ++ unlines [directive_line Directive.require ["z".toList]]) :=
      unlines_chunk ["#!/bin/sh".toList] [] (List.replicate 2047 'a') "# REQUIRE: z".toList
    have hc := parse_rcscript_with_chunk ["#!/bin/sh".toList]
      [directive_line Directive.require ["z".toList]] (List.replicate 2047 'a') []
      svc_new_myd (by decide) (by decide) (List.length_replicate 2047 'a')
      (replicate_no_newline 2047 'a' (by decide))
    rw [hd, hc]
    simp only [List.foldl_cons, List.foldl_nil]
    rw [line_step_directive _ _ _ (by decide) (by decide)]
    rfl

/-- C9, amended.  If every line of the input ends in a newline, fits the buffer and
is no directive line, the parser returns 0 and leaves the three lists unset, and
`emit_units`, once the unit file is open, writes the header lines and the `[Service]`
section: no `Wants=`, `After=` or `Before=` line. -/
theorem parse_rcscript_absence (lines : List (List Char)) (l0 : List Char)
    (name src_path : Str) (os : OS) (r0 r0w : Int) (bin out_dir : Str) (tr : List SysCall)
    (h : ∀ x ∈ lines, short_line x ∧ is_directive_line x = false)
    (hopen : os (tr ++ [SysCall.unlink (unit_path out_dir name)])
      (SysCall.fopen_wx (unit_path out_dir name)) = 0) :
    parse_rcscript (fopen_r (unlines lines)) l0 (new_service name src_path)
        = (0, new_service name src_path)
      ∧ (emit_units os r0 r0w bin out_dir
          (parse_rcscript (fopen_r (unlines lines)) l0 (new_service name src_path)).2
          tr).text
        = some (unit_header src_path ++ service_section bin src_path ++ "\n".toList) := by
  have hp : parse_rcscript (fopen_r (unlines lines)) l0 (new_service name src_path)
      = (0, new_service name src_path) := by
    rw [parse_rcscript_lines _ _ _ (fun x hx => (h x hx).1),
      foldl_line_step_inert lines _ (fun x hx => (h x hx).2)]
  refine ⟨hp, ?_⟩
  rw [hp, emit_units_text os r0 r0w bin out_dir (new_service name src_path) tr rfl hopen]
  simp [unit_lines, new_service]

/-- C9, amended, at a script without directives. -/
theorem parse_rcscript_absence_witness :
    parse_rcscript (fopen_r "#!/bin/sh\n\n# a comment\nname=\"myd\"\n".toList) []
        svc_new_myd
        = (0, svc_new_myd)
      ∧ (emit_units os_ok 0 0 bin_demo "/out".toList
          (parse_rcscript (fopen_r "#!/bin/sh\n\n# a comment\nname=\"myd\"\n".toList) []
            svc_new_myd).2 []).text
        = some (unit_header "/etc/rc.d/myd".toList
            ++ service_section bin_demo "/etc/rc.d/myd".toList ++ "\n".toList) :=
  parse_rcscript_absence
    ["#!/bin/sh".toList, [], "# a comment".toList, "name=\"myd\"".toList] []
    "myd".toList "/etc/rc.d/myd".toList os_ok 0 0 bin_demo "/out".toList [] (by decide) rfl

/-! ## Claims about failure, the descriptor and the rendering of lists -/

/-- C12.  When the unit file cannot be opened, `emit_units` returns the negated errno,
which is negative, writes no text, leaves the descriptor as it was, and its only
calls are the `unlink` and the failed `fopen` of the unit file: no symlink and no
directory is made. -/
theorem emit_units_open_failure (os : OS) (r0 r0w : Int) (bin out_dir : Str)
    (svc : RcNgService) (tr : List SysCall)
    (hfail : os (tr ++ [SysCall.unlink (unit_path out_dir svc.name)])
      (SysCall.fopen_wx (unit_path out_dir svc.name)) ≠ 0) :
    (emit_units os r0 r0w bin out_dir svc tr).ret
        = -((os (tr ++ [SysCall.unlink (unit_path out_dir svc.name)])
          (SysCall.fopen_wx (unit_path out_dir svc.name)) : Nat) : Int)
      ∧ (emit_units os r0 r0w bin out_dir svc tr).ret < 0
      ∧ (emit_units os r0 r0w bin out_dir svc tr).text = none
      ∧ (emit_units os r0 r0w bin out_dir svc tr).trace
        = tr ++ [SysCall.unlink (unit_path out_dir svc.name),
            SysCall.fopen_wx (unit_path out_dir svc.name)]
      ∧ (emit_units os r0 r0w bin out_dir svc tr).svc = svc := by
  have hpos : 0 < os (tr ++ [SysCall.unlink (unit_path out_dir svc.name)])
      (SysCall.fopen_wx (unit_path out_dir svc.name)) := Nat.pos_of_ne_zero hfail
  simp only [emit_units, hfail, ne_eq, not_false_eq_true, if_true]
  refine ⟨trivial, ?_, trivial, ?_, trivial⟩
  · omega
  · simp

/-- C12, at the descriptor of `myd` in an environment where the open fails with
`EACCES`. -/
theorem emit_units_open_failure_witness :
    (emit_units os_open_eacces 0 0 bin_demo "/out".toList svc_myd []).ret = -13
      ∧ (emit_units os_open_eacces 0 0 bin_demo "/out".toList svc_myd []).text = none
      ∧ (emit_units os_open_eacces 0 0 bin_demo "/out".toList svc_myd []).trace
        = [SysCall.unlink "/out/myd.service".toList,
            SysCall.fopen_wx "/out/myd.service".toList] :=
  have h := emit_units_open_failure os_open_eacces 0 0 bin_demo "/out".toList svc_myd []
    (by decide)
  ⟨h.1, h.2.2.1, h.2.2.2.1⟩

/-- C13, as stated, fails: `emit_units` returns for the descriptor whose only list is
`requires = [bar]`, and afterwards the entry of that list carries the suffix. -/
theorem emit_units_changes_descriptor :
    (emit_units os_ok 0 0 bin_demo "/out".toList svc_requires_bar []).aborted = false
      ∧ (emit_units os_ok 0 0 bin_demo "/out".toList svc_requires_bar []).svc.requires
        = some ["bar.service".toList]
      ∧ svc_requires_bar.requires = some ["bar".toList] := by
  decide

/-- C13, amended.  For a descriptor without a `before` list `emit_units` returns; it
leaves the name, the source path, the list `provides` and the absent list `before`
as they were, and, when the unit file has been opened, the list `requires` holds
afterwards every entry with the suffix appended: `emit_name_list` in append mode
extends the entries of the list it is given, and leaves them as they are
otherwise. -/
theorem emit_units_descriptor_after (os : OS) (r0 r0w : Int) (bin out_dir : Str)
    (svc : RcNgService) (tr : List SysCall) (names : List Str) (out_f : Str)
    (hb : svc.before = none)
    (hopen : os (tr ++ [SysCall.unlink (unit_path out_dir svc.name)])
      (SysCall.fopen_wx (unit_path out_dir svc.name)) = 0) :
    (emit_units os r0 r0w bin out_dir svc tr).aborted = false
      ∧ (emit_units os r0 r0w bin out_dir svc tr).svc
        = { svc with
            requires := svc.requires.map (fun l => l.map (fun el => el ++ ".service".toList)) }
      ∧ (emit_name_list out_f names true).2.2 = names.map (fun el => el ++ ".service".toList)
      ∧ (emit_name_list out_f names false).2.2 = names := by
  refine ⟨emit_units_returns os r0 r0w bin out_dir svc tr hb, ?_, ?_, ?_⟩
  · obtain ⟨name, src, pv, rq, bf⟩ := svc
    simp only at hb
    subst hb
    simp only [emit_units, hopen, ne_eq, not_true_eq_false, if_false]
    cases rq <;>
      simp [emit_requires, emit_name_list_append, emit_name_list_plain, with_suffix]
  · rw [emit_name_list_append]; rfl
  · rw [emit_name_list_plain]

/-- C13, amended, at the descriptor whose only list is `requires = [bar]`. -/
theorem emit_units_descriptor_after_witness :
    (emit_units os_ok 0 0 bin_demo "/out".toList svc_requires_bar []).aborted = false
      ∧ (emit_units os_ok 0 0 bin_demo "/out".toList svc_requires_bar []).svc
        = { svc_requires_bar with requires := some ["bar.service".toList] } :=
  have h := emit_units_descriptor_after os_ok 0 0 bin_demo "/out".toList svc_requires_bar []
    [] [] rfl rfl
  ⟨h.1, h.2.1⟩

set_option maxRecDepth 8000 in
/-- C15, as stated, fails: the line `# REQUIRE:` without tokens leaves a list that is
present and has no entries, and `emit_units` then writes a `Wants=` line and an
`After=` line with nothing behind the equals sign. -/
theorem main_text_empty_requires :
    (parse_rcscript (fopen_r script_empty_require) [] svc_new_myd).2.requires = some []
      ∧ (main os_ok [] 0 0 bin_demo argv_demo (some (fopen_r script_empty_require))).text
        = some ("# Automatically generated by the InitWare Mewburn RC Script Converter\n\n"
            ++ "[Unit]\nDocumentation=man:iw_rcng(8)\nSourcePath=/etc/rc.d/myd\n"
            ++ "Wants=\nAfter=\n"
            ++ "[Service]\nType=oneshot\nRemainAfterExit=yes\n"
            ++ "ExecStart=/usr/libexec/runrcng /etc/rc.d/myd start\n"
            ++ "ExecStop=/usr/libexec/runrcng /etc/rc.d/myd stop\n\n").toList := by
  decide

/-- C15, amended.  For a descriptor without a `before` list, once the unit file is
open, `emit_units` returns and has written the `Wants=` and `After=` lines exactly
when `requires` is present, whether or not the list has entries (a list without
entries gives the bare keys), and no `Before=` line. -/
theorem emit_units_lines_when_present (os : OS) (r0 r0w : Int) (bin out_dir : Str)
    (svc : RcNgService) (tr : List SysCall)
    (hb : svc.before = none)
    (hopen : os (tr ++ [SysCall.unlink (unit_path out_dir svc.name)])
      (SysCall.fopen_wx (unit_path out_dir svc.name)) = 0) :
    (emit_units os r0 r0w bin out_dir svc tr).aborted = false
      ∧ (emit_units os r0 r0w bin out_dir svc tr).text
        = some (unit_header svc.src_path
            ++ (match svc.requires with
                | none => []
                | some rs =>
                  "Wants=".toList ++ " ".toList.intercalate (rs.map with_suffix) ++ "\n".toList
                    ++ "After=".toList ++ " ".toList.intercalate (rs.map with_suffix)
                    ++ "\n".toList)
            ++ (match svc.provides with
                | none => []
                | some _ => "\n".toList)
            ++ service_section bin svc.src_path ++ "\n".toList) := by
  refine ⟨emit_units_returns os r0 r0w bin out_dir svc tr hb, ?_⟩
  rw [emit_units_text os r0 r0w bin out_dir svc tr hb hopen]
  simp [unit_lines, join_names, List.append_assoc]

set_option maxRecDepth 8000 in
/-- C15, amended, at a descriptor without a `before` list whose lists `requires` and
`provides` are present and empty. -/
theorem emit_units_lines_when_present_witness :
    (emit_units os_ok 0 0 bin_demo "/out".toList svc_empty_requires []).aborted = false
      ∧ (emit_units os_ok 0 0 bin_demo "/out".toList svc_empty_requires []).text
        = some (unit_header "/etc/rc.d/foo".toList
            ++ "Wants=\nAfter=\n\n".toList
            ++ service_section bin_demo "/etc/rc.d/foo".toList ++ "\n".toList) :=
  have h := emit_units_lines_when_present os_ok 0 0 bin_demo "/out".toList
    svc_empty_requires [] rfl rfl
  ⟨h.1, h.2.trans (by decide)⟩

/-- C18.  `emit_name_list` returns 0 and appends to the file the entries separated by
single blanks, nothing before the first and nothing behind the last (nothing at all
for a list without entries): each entry followed by `.service` in append mode, each
entry as it is stored otherwise. -/
theorem emit_name_list_text (out_f : Str) (names : List Str) :
    (emit_name_list out_f names true).1 = 0
      ∧ (emit_name_list out_f names true).2.1
        = out_f ++ " ".toList.intercalate (names.map (fun el => el ++ ".service".toList))
      ∧ (emit_name_list out_f names false).1 = 0
      ∧ (emit_name_list out_f names false).2.1 = out_f ++ " ".toList.intercalate names
      ∧ (emit_name_list out_f [] true).2.1 = out_f
      ∧ (emit_name_list out_f [] false).2.1 = out_f := by
  refine ⟨rfl, ?_, rfl, ?_, rfl, rfl⟩
  · rw [emit_name_list_append]; rfl
  · rw [emit_name_list_plain]; rfl

/-! ## A stream that fails -/

theorem fgets_on_failing_stream (l data : List Char) (e : Nat) :
    fgets l LINE_MAX { data := data, error := some e, eof := false } = FgetsResult.error e
      ∨ ∃ l1 rest,
          fgets l LINE_MAX { data := data, error := some e, eof := false }
            = FgetsResult.line l1 { data := rest, error := some e, eof := false }
          ∧ rest.length < data.length := by
  have hk : LINE_MAX - 1 = 2046 + 1 := by decide
  by_cases hend : (fgets_read (2046 + 1) data).2.2 = true
  · left
    simp [fgets, hk, hend]
  · right
    refine ⟨store_line (fgets_read (2046 + 1) data).1 l, (fgets_read (2046 + 1) data).2.1, ?_,
      fgets_read_consumes 2046 data (by simpa using hend)⟩
    simp [fgets, hk, hend]

theorem parse_loop_error (e : Nat) :
    ∀ (fuel : Nat) (data l : List Char) (svc : RcNgService), data.length < fuel →
      (parse_rcscript_loop fuel { data := data, error := some e, eof := false } l svc).1
        = -(e : Int) := by
  intro fuel
  induction fuel with
  | zero => intro data l svc h; omega
  | succ n ih =>
    intro data l svc h
    rcases fgets_on_failing_stream l data e with hg | ⟨l1, rest, hg, hlt⟩
    · simp [parse_rcscript_loop, hg]
    · simp only [parse_rcscript_loop, hg, Bool.false_eq_true, if_false]
      exact ih rest _ _ (by omega)

/-- C11.  Let the stream deliver some bytes and then fail with errno `e`, a positive
number.  Then `parse_rcscript` returns `-e`, which is negative, and `main` makes no
system call of the emitter, writes no text and returns `e`, which is not zero. -/
theorem read_failure_is_fatal (data l0 : List Char) (e : Nat) (svc : RcNgService) (os : OS)
    (r0 r0w : Int) (bin : Str) (argv : List Str) (he : 0 < e) (hargs : argv.length = 3) :
    (parse_rcscript { data := data, error := some e, eof := false } l0 svc).1 = -(e : Int)
      ∧ (parse_rcscript { data := data, error := some e, eof := false } l0 svc).1 < 0
      ∧ main os l0 r0 r0w bin argv (some { data := data, error := some e, eof := false })
        = { ret := (e : Int), text := none, trace := [] }
      ∧ (main os l0 r0 r0w bin argv
          (some { data := data, error := some e, eof := false })).ret ≠ 0 := by
  have hp : ∀ s, (parse_rcscript { data := data, error := some e, eof := false } l0 s).1
      = -(e : Int) := fun s => parse_loop_error e _ data l0 s (by simp)
  have hneg : -(e : Int) < 0 := by omega
  have hm : main os l0 r0 r0w bin argv (some { data := data, error := some e, eof := false })
      = { ret := (e : Int), text := none, trace := [] } := by
    simp only [main, hargs, ne_eq, not_true_eq_false, if_false, hp, hneg, if_true, neg_neg]
  refine ⟨hp svc, by rw [hp]; exact hneg, hm, ?_⟩
  rw [hm]
  show (e : Int) ≠ 0
  omega

/-- C11, at a stream that delivers one line and a half and then fails with `EIO`. -/
theorem read_failure_is_fatal_witness :
    (parse_rcscript { data := "# PROVIDE: a\n# REQ".toList, error := some 5, eof := false } []
        svc_new_myd).1 = -5
      ∧ main os_ok [] 0 0 bin_demo argv_demo
          (some { data := "# PROVIDE: a\n# REQ".toList, error := some 5, eof := false })
        = { ret := 5, text := none, trace := [] } :=
  have h := read_failure_is_fatal "# PROVIDE: a\n# REQ".toList [] 5 svc_new_myd os_ok 0 0
    bin_demo argv_demo (by decide) rfl
  ⟨h.1, h.2.2.1⟩

/-! ## The words of the lists -/

theorem strv_split_go_words (s : List Char) :
    ∀ (cur : Str), ' ' ∉ cur → NUL ∉ cur → NUL ∉ s →
      ∀ t ∈ strv_split_go " ".toList s cur, t ≠ [] ∧ ' ' ∉ t ∧ NUL ∉ t := by
  induction s with
  | nil =>
    intro cur h1 h2 _ t ht
    by_cases hc : cur = []
    · simp [strv_split_go, hc] at ht
    · simp only [strv_split_go, hc, if_false, List.mem_singleton] at ht
      subst ht
      exact ⟨hc, h1, h2⟩
  | cons c s ih =>
    intro cur h1 h2 h3 t ht
    have hs : NUL ∉ s := fun h => h3 (by simp [h])
    have hcn : c ≠ NUL := fun h => h3 (by simp [h])
    by_cases hsep : c ∈ " ".toList
    · by_cases hc : cur = []
      · simp only [strv_split_go, hsep, hc, if_true] at ht
        exact ih [] (by simp) (by simp) hs t ht
      · simp only [strv_split_go, hsep, hc, if_true, if_false, List.mem_cons] at ht
        rcases ht with ht | ht
        · subst ht
          exact ⟨hc, h1, h2⟩
        · exact ih [] (by simp) (by simp) hs t ht
    · simp only [strv_split_go, hsep, if_false] at ht
      have hcb : c ≠ ' ' := by simpa using hsep
      refine ih (cur ++ [c]) ?_ ?_ hs t ht
      · simp only [List.mem_append, List.mem_singleton, not_or]
        exact ⟨h1, fun h => hcb h.symm⟩
      · simp only [List.mem_append, List.mem_singleton, not_or]
        exact ⟨h2, fun h => hcn h.symm⟩

theorem assign_field_self (d : Directive) (v : List Str) (svc : RcNgService) :
    d.field (d.assign v svc) = some v := by
  cases d <;> rfl

/-! ## What one line may change -/

theorem parse_loop_invariant (P : RcNgService → Prop)
    (hP : ∀ (B : List Char) (svc : RcNgService), P svc → P (parse_line B svc).2) :
    ∀ (fuel : Nat) (f : FILE) (l : List Char) (svc : RcNgService), P svc →
      P (parse_rcscript_loop fuel f l svc).2 := by
  intro fuel
  induction fuel with
  | zero => intro f l svc h; exact h
  | succ n ih =>
    intro f l svc h
    simp only [parse_rcscript_loop]
    by_cases he : f.eof = true
    · simp only [he, if_true]; exact h
    · simp only [he, Bool.false_eq_true, if_false]
      cases hg : fgets l LINE_MAX f with
      | eof => exact h
      | error e => exact h
      | line l1 f1 => exact ih f1 _ _ (hP l1 svc h)

theorem assign_name (d : Directive) (v : List Str) (svc : RcNgService) :
    (d.assign v svc).name = svc.name ∧ (d.assign v svc).src_path = svc.src_path := by
  cases d <;> exact ⟨rfl, rfl⟩

theorem parse_line_name (B : List Char) (svc : RcNgService) :
    (parse_line B svc).2.name = svc.name ∧ (parse_line B svc).2.src_path = svc.src_path := by
  rcases parse_line_cases B svc with h0 | ⟨d, v, _, _, h3⟩
  · rw [h0]; exact ⟨rfl, rfl⟩
  · rw [h3]; exact assign_name d v svc

theorem parse_line_one_field (B : List Char) (svc : RcNgService) :
    ∃ d0 : Directive, ∀ d2 : Directive, d2 ≠ d0 →
      d2.field (parse_line B svc).2 = d2.field svc := by
  rcases parse_line_cases B svc with h0 | ⟨d, v, _, _, h3⟩
  · exact ⟨Directive.provide, fun d2 _ => by rw [h0]⟩
  · exact ⟨d, fun d2 hd => by rw [h3, assign_field_ne d d2 v svc (fun e => hd e.symm)]⟩

theorem key_line_exclusive (d d2 : Directive) (line : List Char)
    (h : is_key_line d.keyword line = true) (hne : d2 ≠ d) :
    is_key_line d2.keyword line = false := by
  by_contra hc
  have h2 : is_key_line d2.keyword line = true := by simpa using hc
  simp only [is_key_line, Bool.and_eq_true, decide_eq_true_eq] at h h2
  have hcmp := List.prefix_or_prefix_of_prefix h.2 h2.2
  cases d <;> cases d2 <;> first
    | exact hne rfl
    | (rcases hcmp with hp | hp <;> exact absurd hp (by decide))

theorem parse_rcscript_one_line (line l0 : List Char) (svc : RcNgService)
    (h : short_line line) :
    parse_rcscript (fopen_r (line ++ ['\n'])) l0 svc = (0, (line_step (l0, svc) line).2) := by
  have := parse_rcscript_lines [line] l0 svc (fun x hx => by rw [List.mem_singleton.mp hx]; exact h)
  simpa [unlines] using this

theorem not_directive_of_not_candidate (line : List Char)
    (h : (spec_strip line).head? ≠ some '#') : is_directive_line line = false := by
  simp [is_directive_line, is_key_line, h]

/-- C17, as stated, fails on a line longer than the buffer: the line of 2047 times
`k` followed by `# BEFORE: y` is no candidate, its stripped form starts with `k`, and
yet processing it sets `before`, because what lies behind the first 2047 characters
is read as a line of its own. -/
theorem parse_rcscript_frame_fails :
    is_directive_line overlong_before_line = false
      ∧ (parse_rcscript (fopen_r (unlines [overlong_before_line])) [] svc_new_myd).2.before
        = some ["y".toList]
      ∧ svc_new_myd.before = none := by
  refine ⟨?_, ?_, rfl⟩
  · exact directive_line_ordinary 'k' _ (by decide) (by decide)
  · have hd : unlines [overlong_before_line]
        = unlines [] ++ (List.replicate 2047 'k'
            ++ unlines [directive_line Directive.before ["y".toList]]) :=
      unlines_chunk [] [] (List.replicate 2047 'k') "# BEFORE: y".toList
    have hc := parse_rcscript_with_chunk [] [directive_line Directive.before ["y".toList]]
      (List.replicate 2047 'k') [] svc_new_myd (by decide) (by decide)
      (List.length_replicate 2047 'k') (replicate_no_newline 2047 'k' (by decide))
    rw [hd, hc]
    simp only [List.foldl_cons, List.foldl_nil]
    rw [line_step_directive _ _ _ (by decide) (by decide)]
    rfl

/-- C17, amended.  One round of the loop, on whatever the buffer holds, keeps the name
and the source path and changes at most one of the three lists; the whole parse keeps
the name and the source path.  Processing one line that ends in a newline and fits
the buffer changes no list but the one of its keyword when it is a directive line,
and changes nothing when it is no candidate or no directive line. -/
theorem parse_rcscript_frame (B line l0 : List Char) (f : FILE) (svc : RcNgService)
    (d : Directive) (hline : short_line line) :
    ((parse_line B svc).2.name = svc.name ∧ (parse_line B svc).2.src_path = svc.src_path
        ∧ ∃ d0 : Directive, ∀ d2 : Directive, d2 ≠ d0 →
            d2.field (parse_line B svc).2 = d2.field svc)
      ∧ ((parse_rcscript f l0 svc).2.name = svc.name
        ∧ (parse_rcscript f l0 svc).2.src_path = svc.src_path)
      ∧ (is_key_line d.keyword line = true → ∀ d2 : Directive, d2 ≠ d →
          d2.field (parse_rcscript (fopen_r (line ++ ['\n'])) l0 svc).2 = d2.field svc)
      ∧ ((spec_strip line).head? ≠ some '#' →
          parse_rcscript (fopen_r (line ++ ['\n'])) l0 svc = (0, svc))
      ∧ (is_directive_line line = false →
          parse_rcscript (fopen_r (line ++ ['\n'])) l0 svc = (0, svc)) := by
  have hinert : is_directive_line line = false →
      parse_rcscript (fopen_r (line ++ ['\n'])) l0 svc = (0, svc) := by
    intro h
    rw [parse_rcscript_one_line line l0 svc hline, line_step_inert (l0, svc) line h]
  refine ⟨⟨(parse_line_name B svc).1, (parse_line_name B svc).2, parse_line_one_field B svc⟩,
    ?_, ?_, ?_, hinert⟩
  · exact parse_loop_invariant
      (fun s => s.name = svc.name ∧ s.src_path = svc.src_path)
      (fun B2 s hs => ⟨(parse_line_name B2 s).1.trans hs.1, (parse_line_name B2 s).2.trans hs.2⟩)
      _ f l0 svc ⟨rfl, rfl⟩
  · intro hk d2 hne
    rw [parse_rcscript_one_line line l0 svc hline]
    exact line_step_field d2 (l0, svc) line (key_line_exclusive d d2 line hk hne)
  · intro h
    exact hinert (not_directive_of_not_candidate line h)

/-- C17, amended, at the line `# REQUIRE: x y` processed on a descriptor that has all
three lists, and at comments that are no directive lines: the keyword right behind
the `#`, in lower case, or without its colon. -/
theorem parse_rcscript_frame_witness :
    (is_key_line Directive.require.keyword "# REQUIRE: x y".toList = true →
        ∀ d2 : Directive, d2 ≠ Directive.require →
          d2.field (parse_rcscript (fopen_r ("# REQUIRE: x y".toList ++ ['\n'])) [] svc_myd).2
            = d2.field svc_myd)
      ∧ (is_directive_line "#PROVIDE: x".toList = false →
          parse_rcscript (fopen_r ("#PROVIDE: x".toList ++ ['\n'])) [] svc_myd = (0, svc_myd))
      ∧ is_key_line Directive.require.keyword "# REQUIRE: x y".toList = true
      ∧ is_directive_line "#PROVIDE: x".toList = false
      ∧ is_directive_line "# provide: x".toList = false
      ∧ is_directive_line "# PROVIDE x".toList = false :=
  ⟨(parse_rcscript_frame [] "# REQUIRE: x y".toList [] (fopen_r []) svc_myd
      Directive.require (by decide)).2.2.1,
    (parse_rcscript_frame [] "#PROVIDE: x".toList [] (fopen_r []) svc_myd
      Directive.provide (by decide)).2.2.2.2,
    by decide, by decide, by decide, by decide⟩

/-! ## A full line does not depend on what the buffer held -/

theorem takeWhile_append_of_mem (p : Char → Bool) (Y Z : List Char)
    (h : ∃ a ∈ Y, p a = false) : (Y ++ Z).takeWhile p = Y.takeWhile p := by
  induction Y with
  | nil => obtain ⟨a, ha, _⟩ := h; simp at ha
  | cons y Y ih =>
    by_cases hy : p y = true
    · obtain ⟨a, ha, hpa⟩ := h
      have haY : a ∈ Y := by
        rcases List.mem_cons.mp ha with e | e
        · subst e; rw [hy] at hpa; exact absurd hpa (by decide)
        · exact e
      simp [List.takeWhile_cons, hy, ih ⟨a, haY, hpa⟩]
    · simp [List.takeWhile_cons, hy]

theorem key_line_bound (key line : List Char) (hkey : key ≠ [])
    (h : is_key_line key line = true) :
    (line.takeWhile is_space).length + 2 + key.length ≤ line.length := by
  simp only [is_key_line, Bool.and_eq_true, decide_eq_true_eq] at h
  have h1 : key.length ≤ ((spec_strip line).drop 2).length := h.2.length_le
  have h2 : 0 < key.length := List.length_pos.mpr hkey
  have h3 : (spec_strip line).length ≤ (line.dropWhile is_space).length := by
    have := (List.dropWhile_sublist is_space
      (l := (line.dropWhile is_space).reverse)).length_le
    simpa [spec_strip] using this
  have h4 : (line.takeWhile is_space).length + (line.dropWhile is_space).length
      = line.length := by
    have := congrArg List.length (List.takeWhile_append_dropWhile is_space line)
    rw [List.length_append] at this
    exact this
  rw [List.length_drop] at h1
  omega

theorem assign_words_clean (d : Directive) (v : List Str) (svc : RcNgService)
    (h : words_clean svc) (hv : ∀ t ∈ v, t ≠ [] ∧ ' ' ∉ t ∧ '\n' ∉ t ∧ NUL ∉ t) :
    words_clean (d.assign v svc) := by
  intro d2 toks hd
  by_cases hdd : d = d2
  · subst hdd
    rw [assign_field_self] at hd
    cases hd
    exact hv
  · rw [assign_field_ne d d2 v svc hdd] at hd
    exact h d2 toks hd

theorem new_service_words_clean (name src_path : Str) :
    words_clean (new_service name src_path) := by
  intro d toks hd
  cases d <;> simp [Directive.field, new_service] at hd

theorem strv_split_go_mem (sep s : List Char) :
    ∀ (cur : Str), ∀ t ∈ strv_split_go sep s cur, ∀ c ∈ t, c ∈ cur ∨ c ∈ s := by
  induction s with
  | nil =>
    intro cur t ht c hc
    by_cases hcur : cur = []
    · simp [strv_split_go, hcur] at ht
    · simp only [strv_split_go, hcur, if_false, List.mem_singleton] at ht
      subst ht
      exact Or.inl hc
  | cons a s ih =>
    intro cur t ht c hc
    by_cases hsep : a ∈ sep
    · by_cases hcur : cur = []
      · simp only [strv_split_go, hsep, hcur, if_true] at ht
        rcases ih [] t ht c hc with h | h
        · simp at h
        · exact Or.inr (List.mem_cons_of_mem _ h)
      · simp only [strv_split_go, hsep, hcur, if_true, if_false, List.mem_cons] at ht
        rcases ht with ht | ht
        · subst ht
          exact Or.inl hc
        · rcases ih [] t ht c hc with h | h
          · simp at h
          · exact Or.inr (List.mem_cons_of_mem _ h)
    · simp only [strv_split_go, hsep, if_false] at ht
      rcases ih (cur ++ [a]) t ht c hc with h | h
      · rcases List.mem_append.mp h with h | h
        · exact Or.inl h
        · exact Or.inr (by simp at h; simp [h])
      · exact Or.inr (List.mem_cons_of_mem _ h)

theorem spec_strip_length_le (line : List Char) :
    (line.takeWhile is_space).length + (spec_strip line).length ≤ line.length := by
  have h3 : (spec_strip line).length ≤ (line.dropWhile is_space).length := by
    have := (List.dropWhile_sublist is_space
      (l := (line.dropWhile is_space).reverse)).length_le
    simpa [spec_strip] using this
  have h4 : (line.takeWhile is_space).length + (line.dropWhile is_space).length
      = line.length := by
    have := congrArg List.length (List.takeWhile_append_dropWhile is_space line)
    rw [List.length_append] at this
    exact this
  omega

theorem spec_strip_eq_take (line : List Char) :
    spec_strip line
      = ((line.drop (line.takeWhile is_space).length)).take (spec_strip line).length := by
  rw [drop_length_takeWhile]
  have hp : spec_strip line <+: line.dropWhile is_space := by
    have h := List.dropWhile_suffix is_space (l := (line.dropWhile is_space).reverse)
    have h2 := List.reverse_prefix.mpr h
    simpa [spec_strip] using h2
  exact List.prefix_iff_eq_take.mp hp

theorem spec_strip_mem (line : List Char) : ∀ c ∈ spec_strip line, c ∈ line := by
  intro c hc
  rw [spec_strip_eq_take] at hc
  exact List.mem_of_mem_drop (List.mem_of_mem_take hc)

/-- The stripped form of a line does not end in whitespace. -/
theorem spec_strip_last (line : List Char) (c : Char)
    (h : (spec_strip line).getLast? = some c) : is_space c = false := by
  rw [spec_strip, List.getLast?_reverse] at h
  cases hd : (line.dropWhile is_space).reverse.dropWhile is_space with
  | nil => rw [hd] at h; simp at h
  | cons x xs =>
    rw [hd] at h
    have hx : x = c := by simpa using h
    subst hx
    have := List.head_dropWhile_not is_space (line.dropWhile is_space).reverse
      (by rw [hd]; simp)
    simpa [hd] using this

/-- What `strstrip` does to a full line without terminators that holds more than
whitespace: the offset it returns and the place of the terminator it writes. -/
theorem strstrip_line (line stale : List Char) (hnn : NUL ∉ line)
    (hc : ∃ c ∈ line, is_space c = false) :
    strstrip (line ++ '\n' :: NUL :: stale)
      = ((line ++ '\n' :: NUL :: stale).set
          ((line.takeWhile is_space).length + (spec_strip line).length) NUL,
        (line.takeWhile is_space).length) := by
  have hnl : is_space '\n' = true := by decide
  have hX : ∀ c ∈ line ++ ['\n'], not_nul c = true := by
    intro c hc
    rcases List.mem_append.mp hc with h | h
    · have : c ≠ NUL := fun e => hnn (e ▸ h)
      simpa [not_nul] using this
    · have : c = '\n' := by simpa using h
      subst this
      decide
  have e0 : line ++ '\n' :: NUL :: stale = (line ++ ['\n']) ++ NUL :: stale := by simp
  have c0 : cstr (line ++ '\n' :: NUL :: stale) 0 = line ++ ['\n'] := by
    rw [e0, cstr_append_nul _ _ 0 hX (Nat.zero_le _)]
    rfl
  have ht : (line ++ ['\n']).takeWhile is_space = line.takeWhile is_space :=
    takeWhile_append_of_mem is_space line ['\n'] hc
  have hsl : (line.takeWhile is_space).length ≤ line.length :=
    (List.takeWhile_sublist is_space).length_le
  have cs : cstr (line ++ '\n' :: NUL :: stale) (line.takeWhile is_space).length
      = line.dropWhile is_space ++ ['\n'] := by
    rw [e0, cstr_append_nul _ _ _ hX (by simp; omega), List.drop_append_of_le_length hsl,
      drop_length_takeWhile]
  have he : ((line.dropWhile is_space ++ ['\n']).reverse.dropWhile is_space).length
      = (spec_strip line).length := by
    simp [spec_strip, List.dropWhile_cons, hnl]
  simp only [strstrip, c0, ht, cs, he]

/-- The string that the code reads `k` bytes behind the offset of `strstrip`, on a
full line without terminators, when that place is not behind the terminator that
`strstrip` has written: the stripped line without its first `k` characters. -/
theorem cstr_value (line stale : List Char) (k : Nat) (hnn : NUL ∉ line)
    (hk : k ≤ (spec_strip line).length) :
    cstr ((line ++ '\n' :: NUL :: stale).set
        ((line.takeWhile is_space).length + (spec_strip line).length) NUL)
        ((line.takeWhile is_space).length + k)
      = (spec_strip line).drop k := by
  have hle := spec_strip_length_le line
  have hlt : (line.takeWhile is_space).length + (spec_strip line).length
      < (line ++ '\n' :: NUL :: stale).length := by simp; omega
  have e1 : (line ++ '\n' :: NUL :: stale).set
        ((line.takeWhile is_space).length + (spec_strip line).length) NUL
      = line.take ((line.takeWhile is_space).length + (spec_strip line).length)
          ++ NUL :: (line ++ '\n' :: NUL :: stale).drop
            ((line.takeWhile is_space).length + (spec_strip line).length + 1) := by
    rw [List.set_eq_take_append_cons_drop, if_pos hlt, List.take_append_of_le_length hle]
  have hX : ∀ c ∈ line.take ((line.takeWhile is_space).length + (spec_strip line).length),
      not_nul c = true := by
    intro c hc
    have : c ≠ NUL := fun e => hnn (e ▸ List.mem_of_mem_take hc)
    simpa [not_nul] using this
  rw [e1, cstr_append_nul _ _ _ hX (by simp; omega)]
  conv_rhs => rw [spec_strip_eq_take line]
  rw [← List.drop_drop, List.drop_take, Nat.add_sub_cancel_left]

/-- What `parse_line` does to the descriptor, with the list it assigns. -/
theorem parse_line_value (B : List Char) (svc : RcNgService) :
    (parse_line B svc).2 = svc
      ∨ ∃ d : Directive, (strstrip B).1.getD (strstrip B).2 NUL = '#'
          ∧ strneq (cstr (strstrip B).1 ((strstrip B).2 + 2)) d.keyword d.keyword.length = true
          ∧ (parse_line B svc).2
            = d.assign (strv_split
                (cstr (strstrip B).1 ((strstrip B).2 + 2 + (d.keyword.length + 1)))
                " ".toList) svc := by
  by_cases h1 : (strstrip B).1.getD (strstrip B).2 NUL = '#'
  · by_cases hp : strneq (cstr (strstrip B).1 ((strstrip B).2 + 2)) "PROVIDE:".toList 8 = true
    · right
      refine ⟨Directive.provide, h1, hp, ?_⟩
      simp only [parse_line, h1, hp, ne_eq, not_true_eq_false, if_false, if_true]
      rfl
    · by_cases hr : strneq (cstr (strstrip B).1 ((strstrip B).2 + 2)) "REQUIRE:".toList 8 = true
      · right
        refine ⟨Directive.require, h1, hr, ?_⟩
        simp only [parse_line, h1, hp, hr, ne_eq, not_true_eq_false, if_false, if_true,
          Bool.false_eq_true]
        rfl
      · by_cases hb : strneq (cstr (strstrip B).1 ((strstrip B).2 + 2)) "BEFORE:".toList 7 = true
        · right
          refine ⟨Directive.before, h1, hb, ?_⟩
          simp only [parse_line, h1, hp, hr, hb, ne_eq, not_true_eq_false, if_false, if_true,
            Bool.false_eq_true]
          rfl
        · left
          simp only [parse_line, h1, hp, hr, hb, ne_eq, not_true_eq_false, if_false,
            Bool.false_eq_true]
  · left
    simp only [parse_line, h1, ne_eq, not_false_eq_true, if_true]

/-- The step of the parser on a full line without terminators that has a character
behind its keyword: the descriptor stays, or the list of the keyword of the line is
set to the words of the stripped line behind the `#`, the skipped character, the
keyword and one more character. -/
theorem line_step_value (l : List Char) (svc : RcNgService) (line : List Char)
    (hnn : NUL ∉ line) (hv : has_value line) :
    (line_step (l, svc) line).2 = svc
      ∨ ∃ d : Directive, is_key_line d.keyword line = true
          ∧ (line_step (l, svc) line).2
            = d.assign (strv_split ((spec_strip line).drop (2 + (d.keyword.length + 1)))
                " ".toList) svc := by
  simp only [line_step, store_line_newline]
  rcases parse_line_value (line ++ '\n' :: NUL :: l.drop (line.length + 2)) svc
    with e | ⟨d, h1, h2, e⟩
  · exact Or.inl e
  · right
    have hk := match_sound d.keyword line _ (keyword_ne_nil d) (keyword_chars d) h1 h2
    have hb := key_line_bound d.keyword line (keyword_ne_nil d) hk
    have hval := hv d hk
    have hc : ∃ c ∈ line, is_space c = false := by
      by_contra hcon
      have hall : ∀ c ∈ line, is_space c = true := by
        intro c hc
        by_contra hf
        exact hcon ⟨c, hc, by simpa using hf⟩
      have : line.takeWhile is_space = line := List.takeWhile_eq_self_iff.mpr hall
      rw [this] at hb
      omega
    refine ⟨d, hk, ?_⟩
    rw [e, strstrip_line line _ hnn hc]
    simp only [Nat.add_assoc]
    rw [cstr_value line _ _ hnn (by omega)]

theorem line_step_words_clean (l : List Char) (svc : RcNgService) (line : List Char)
    (h : words_clean svc) (hs : short_line line) (hnn : NUL ∉ line) (hv : has_value line) :
    words_clean (line_step (l, svc) line).2 := by
  rcases line_step_value l svc line hnn hv with e | ⟨d, _, e⟩
  · rw [e]; exact h
  · rw [e]
    refine assign_words_clean d _ svc h ?_
    intro t ht
    have hsub : ∀ c ∈ (spec_strip line).drop (2 + (d.keyword.length + 1)), c ∈ line :=
      fun c hc => spec_strip_mem line c (List.mem_of_mem_drop hc)
    obtain ⟨g1, g2, g3⟩ := strv_split_go_words _ [] (by simp) (by simp)
      (fun hm => hnn (hsub NUL hm)) t ht
    refine ⟨g1, g2, ?_, g3⟩
    intro hn
    rcases strv_split_go_mem _ _ [] t ht '\n' hn with hm | hm
    · simp at hm
    · exact hs.1 (hsub '\n' hm)

theorem foldl_line_step_words_clean (lines : List (List Char)) :
    ∀ (st : List Char × RcNgService), words_clean st.2 →
      (∀ x ∈ lines, short_line x ∧ NUL ∉ x ∧ has_value x) →
      words_clean (lines.foldl line_step st).2 := by
  induction lines with
  | nil => intro st h _; exact h
  | cons x xs ih =>
    intro st h hx
    simp only [List.foldl_cons]
    obtain ⟨a1, a2, a3⟩ := hx x (by simp)
    exact ih _ (line_step_words_clean st.1 st.2 x h a1 a2 a3)
      (fun y hy => hx y (List.mem_cons_of_mem _ hy))

/-- C14, as stated, fails: the line is split at blanks only, so a tab inside a word
stays in the entry. -/
theorem parse_rcscript_word_with_tab :
    parse_rcscript (fopen_r "# PROVIDE: a\tb c\n".toList) [] svc_new_myd
      = (0, { svc_new_myd with provides := some ["a\tb".toList, "c".toList] }) := by
  decide

/-- C14, amended.  Let every line of the input end in a newline, fit the buffer, hold
no terminator and, if it is a directive line, have at least one character behind its
keyword.  Then `parse_rcscript` returns 0 and every entry of a list that is present
is not empty and holds no blank, no newline and no terminator.  On each such line
the list that is set holds the words of the stripped line behind the `#`, the
skipped character, the keyword and one more character, a text that does not end in
a blank.  A line `# KEYWORD: ` followed by words separated by single blanks yields
the words as they stand, repeated words included. -/
theorem parse_rcscript_words (lines : List (List Char)) (l0 : List Char)
    (name src_path : Str) (svc : RcNgService) (d : Directive) (tokens : List Str)
    (h : ∀ x ∈ lines, short_line x ∧ NUL ∉ x ∧ has_value x)
    (hne : tokens ≠ []) (hclean : ∀ t ∈ tokens, clean_token t)
    (hlen : (directive_line d tokens).length + 1 < LINE_MAX) :
    (parse_rcscript (fopen_r (unlines lines)) l0 (new_service name src_path)).1 = 0
      ∧ (∀ (d2 : Directive) (toks : List Str),
          d2.field (parse_rcscript (fopen_r (unlines lines)) l0
            (new_service name src_path)).2 = some toks →
          ∀ t ∈ toks, t ≠ [] ∧ ' ' ∉ t ∧ '\n' ∉ t ∧ NUL ∉ t)
      ∧ (∀ x ∈ lines, ∀ (l : List Char) (s : RcNgService),
          (line_step (l, s) x).2 = s
            ∨ ∃ d2 : Directive, is_key_line d2.keyword x = true
                ∧ (line_step (l, s) x).2
                  = d2.assign (strv_split ((spec_strip x).drop (2 + (d2.keyword.length + 1)))
                      " ".toList) s
                ∧ ((spec_strip x).drop (2 + (d2.keyword.length + 1))).getLast? ≠ some ' ')
      ∧ d.field (parse_rcscript (fopen_r (unlines [directive_line d tokens])) l0 svc).2
        = some tokens := by
  have hp := parse_rcscript_lines lines l0 (new_service name src_path) (fun x hx => (h x hx).1)
  refine ⟨by rw [hp], ?_, ?_, ?_⟩
  · rw [hp]
    exact foldl_line_step_words_clean lines _ (new_service_words_clean name src_path) h
  · intro x hx l s
    rcases line_step_value l s x (h x hx).2.1 (h x hx).2.2 with e | ⟨d2, hk, e⟩
    · exact Or.inl e
    · refine Or.inr ⟨d2, hk, e, ?_⟩
      intro hl
      rw [List.getLast?_drop] at hl
      split at hl
      · exact absurd hl (by simp)
      · exact absurd (spec_strip_last x ' ' hl) (by decide)
  · have hshort : ∀ x ∈ [directive_line d tokens], short_line x := by
      intro x hx
      rw [List.mem_singleton.mp hx]
      exact ⟨directive_line_no_newline _ _ hclean, hlen⟩
    rw [parse_rcscript_lines _ l0 svc hshort]
    simp only [List.foldl_cons, List.foldl_nil]
    rw [line_step_directive _ _ _ hne hclean, assign_field_self]

/-- C14, amended, at a script whose `PROVIDE:` line has a word with a tab, a double
blank and a blank at its end, and at the line `# REQUIRE: a a b`. -/
theorem parse_rcscript_words_witness :
    (parse_rcscript (fopen_r "#!/bin/sh\n# PROVIDE: a\tb  c \n".toList) []
        (new_service "myd".toList "/etc/rc.d/myd".toList)).1 = 0
      ∧ (∀ (d2 : Directive) (toks : List Str),
          d2.field (parse_rcscript (fopen_r "#!/bin/sh\n# PROVIDE: a\tb  c \n".toList) []
            (new_service "myd".toList "/etc/rc.d/myd".toList)).2 = some toks →
          ∀ t ∈ toks, t ≠ [] ∧ ' ' ∉ t ∧ '\n' ∉ t ∧ NUL ∉ t)
      ∧ (parse_rcscript (fopen_r "# REQUIRE: a a b\n".toList) [] svc_new_myd).2.requires
        = some ["a".toList, "a".toList, "b".toList] :=
  have h := parse_rcscript_words ["#!/bin/sh".toList, "# PROVIDE: a\tb  c ".toList] []
    "myd".toList "/etc/rc.d/myd".toList svc_new_myd Directive.require
    ["a".toList, "a".toList, "b".toList] (by decide) (by decide) (by decide) (by decide)
  ⟨h.1, h.2.1, h.2.2.2⟩

end Rcng2Unit
